import Mathlib

/-!
# Bit vectors and the float encoder of `floating_point/`

A shallow embedding of `bit_vector.c` and `floating_point.c`.

Conventions of the embedding (LP64 target, as built by gcc or clang):

* `Byte` (`uint8_t`) values are natural numbers; every store to a byte is
  reduced modulo `256` exactly where the C code narrows to `Byte`.
* `unsigned int` is 32 bits wide, `size_t` is 64 bits wide, `int` is 32 bits
  wide in two's complement.  The conversions the C code performs implicitly
  are written out with `toUInt`, `toSizeT` and `toInt`.
* The storage a `Byte*` points to is a total map from byte offsets to byte
  values.  A freshly `malloc`ed buffer is an arbitrary such map, passed in as
  an argument of the function that allocates it.
* Loops whose trip count is not syntactically bounded carry a fuel argument
  and return `none` when the fuel is exhausted.
-/

namespace CS

/-! ## Machine integers -/

/-- Conversion of an integer value to `unsigned int` (reduction modulo `2^32`). -/
def toUInt (x : Int) : Nat := (x % 4294967296).toNat

/-- Conversion of an integer value to `size_t` (reduction modulo `2^64`). -/
def toSizeT (x : Int) : Nat := (x % 18446744073709551616).toNat

/-- Conversion of an integer value to `int` (two's complement, 32 bits). -/
def toInt (x : Int) : Int := (x + 2147483648) % 4294967296 - 2147483648

/-! ## Bit and byte primitives (`bit_vector.c`, lines 55-128) -/

def IS_BIG_ENDIAN : Bool := false
def BITS_PER_BYTE : Nat := 8
def MAX_BYTE_VALUE : Nat := 255

/-- The C function `byte_to_bit`: any nonzero byte is read as `1`. -/
def byte_to_bit (byte : Nat) : Nat :=
  if byte = 0 then 0 else 1

/-- The C function `get_mask`; the shifted `int` is narrowed to `Byte`. -/
def get_mask (index : Nat) : Nat :=
  if index ≥ BITS_PER_BYTE then MAX_BYTE_VALUE
  else if IS_BIG_ENDIAN then (1 <<< (BITS_PER_BYTE - index - 1)) % 256
  else (1 <<< index) % 256

/-- The C function `get_inverted_mask`. -/
def get_inverted_mask (index : Nat) : Nat :=
  if index ≥ BITS_PER_BYTE then MAX_BYTE_VALUE
  else (MAX_BYTE_VALUE ^^^ get_mask index) % 256

/-- The C function `get_bit`. -/
def get_bit (byte : Nat) (index : Nat) : Nat :=
  if index ≥ BITS_PER_BYTE then MAX_BYTE_VALUE
  else
    let mask := get_mask index
    let masked_byte := byte &&& mask
    byte_to_bit masked_byte

/-- The C function `set_bit`, returning the new content of `*byte`. -/
def set_bit (byte : Nat) (index : Nat) (value : Nat) : Nat :=
  if index ≥ BITS_PER_BYTE then byte
  else
    let value_to_set := byte_to_bit value
    let mask := get_mask index
    let inv_mask := get_inverted_mask index
    let b := byte &&& inv_mask
    if value_to_set = 1 then (b + mask) % 256 else b

/-! ## The `BitVector` struct and its indexing -/

/-- The C struct `BitVector`: `data` is the storage behind the `Byte*`,
`length` the length in bits. -/
structure BitVector where
  data : Nat → Nat
  length : Nat

/-- The C function `get_num_bytes`, in `size_t` arithmetic. -/
def get_num_bytes (length : Nat) : Nat :=
  (toSizeT ((length : Int) - 1) / BITS_PER_BYTE + 1) % 18446744073709551616

def get_byte_index (index : Nat) : Nat := index / BITS_PER_BYTE

def get_offset (index : Nat) : Nat := index % BITS_PER_BYTE

/-- The C function `vect_get_bit`; `index` is the `unsigned int` argument. -/
def vect_get_bit (bvect : BitVector) (index : Nat) : Nat :=
  if index ≥ bvect.length then MAX_BYTE_VALUE
  else get_bit (bvect.data (get_byte_index index)) (get_offset index)

/-- The C function `vect_set_bit`, returning the updated vector. -/
def vect_set_bit (bvect : BitVector) (index : Nat) (value : Nat) : BitVector :=
  if index ≥ bvect.length then bvect
  else
    { bvect with
      data := Function.update bvect.data (get_byte_index index)
        (set_bit (bvect.data (get_byte_index index)) (get_offset index) value) }

/-! ## Shifts (`bit_vector.c`, lines 192-218) -/

/-- Inner loop of `vect_right_shift`:
`for (int j = i; j < vect->length; j += shift)`.  The test converts `j` to
`size_t`; the increment is computed in `unsigned int` and stored back into
the `int`.  The values of `j` that pass the test are pairwise distinct, so
`vect->length + 1` units of fuel are enough whenever the loop terminates. -/
def right_shift_inner (shift : Nat) : Nat → BitVector → Int → Nat → Option BitVector
  | 0, _, _, _ => none
  | fuel + 1, vect, j, previous =>
    if toSizeT j < vect.length then
      let tmp := vect_get_bit vect (toUInt j)
      let vect1 := vect_set_bit vect (toUInt j) previous
      right_shift_inner shift fuel vect1 (toInt ((toUInt j : Int) + (shift : Int))) tmp
    else some vect

/-- Outer loop of `vect_right_shift`: `for (int i = 0; i < shift; i++)`,
the test being an `unsigned int` comparison. -/
def right_shift_outer (shift : Nat) : Nat → BitVector → Int → Option BitVector
  | 0, _, _ => none
  | fuel + 1, vect, i =>
    if toUInt i < shift then
      match right_shift_inner shift (vect.length + 1) vect i 0 with
      | none => none
      | some vect1 => right_shift_outer shift fuel vect1 (toInt (i + 1))
    else some vect

/-- The C function `vect_right_shift`; `shift` is the `unsigned int` argument. -/
def vect_right_shift (vect : BitVector) (shift : Nat) : Option BitVector :=
  right_shift_outer shift (shift + 1) vect 0

/-- Inner loop of `vect_left_shift`: `for (int j = i; j >= 0; j -= shift)`.
The values of `j` that pass the test are pairwise distinct non-negative
`int`s, which bounds the fuel the callers give. -/
def left_shift_inner (shift : Nat) : Nat → BitVector → Int → Nat → Option BitVector
  | 0, _, _, _ => none
  | fuel + 1, vect, j, previous =>
    if j ≥ 0 then
      let tmp := vect_get_bit vect (toUInt j)
      let vect1 := vect_set_bit vect (toUInt j) previous
      left_shift_inner shift fuel vect1 (toInt ((toUInt j : Int) - (shift : Int))) tmp
    else some vect

/-- Outer loop of `vect_left_shift`:
`for (int i = vect->length - 1; i > vect->length - shift - 1; i--)`.
The bound is computed in `size_t`, and `i` is converted to `size_t` for the
comparison.  The values of `i` that pass the test are pairwise distinct
`int`s. -/
def left_shift_outer (shift : Nat) : Nat → BitVector → Int → Option BitVector
  | 0, _, _ => none
  | fuel + 1, vect, i =>
    if toSizeT i > toSizeT ((vect.length : Int) - (shift : Int) - 1) then
      match left_shift_inner shift 2147483649 vect i 0 with
      | none => none
      | some vect1 => left_shift_outer shift fuel vect1 (toInt (i - 1))
    else some vect

/-- The C function `vect_left_shift`; `shift` is the `unsigned int` argument. -/
def vect_left_shift (vect : BitVector) (shift : Nat) : Option BitVector :=
  left_shift_outer shift 4294967297 vect (toInt (toSizeT ((vect.length : Int) - 1)))

/-! ## Copy, concatenation, reversal (`bit_vector.c`, lines 220-272) -/

/-- Loop of `vect_copy`: `for (int i = 0; i < src->length; i++)` with its
`break`.  `offset + i` is an `unsigned int` sum. -/
def copy_loop (src : BitVector) (offset : Nat) : Nat → BitVector → Int → Option BitVector
  | 0, _, _ => none
  | fuel + 1, dest, i =>
    if toSizeT i < src.length then
      if toUInt ((offset : Int) + i) ≥ dest.length then some dest
      else
        copy_loop src offset fuel
          (vect_set_bit dest (toUInt ((offset : Int) + i)) (vect_get_bit src (toUInt i)))
          (toInt (i + 1))
    else some dest

/-- The C function `vect_copy`, returning the updated `dest`; `src` and `dest`
have separate storage. -/
def vect_copy (src dest : BitVector) (offset : Nat) : Option BitVector :=
  if offset ≥ dest.length then some dest
  else copy_loop src offset (src.length + 1) dest 0

/-- The C function `vect_cat`.  `init` is the content of the buffer `malloc`
returns for the new vector; the `unsigned int` parameter of the second
`vect_copy` receives `vect1->length` truncated to 32 bits.  The test
`length < 0` on a `size_t` never holds. -/
def vect_cat (init : Nat → Nat) (vect1 vect2 : BitVector) : Option BitVector :=
  let length := (vect1.length + vect2.length) % 18446744073709551616
  let new_vect : BitVector := { data := init, length := length }
  match vect_copy vect1 new_vect 0 with
  | none => none
  | some new_vect1 => vect_copy vect2 new_vect1 (toUInt vect1.length)

/-- Loop of `vect_reverse`: `for (int i = 0; i < (int)vect->length / 2; i++)`.
`count` is the number of iterations left; `i` stays below `2^30`. -/
def reverse_loop : Nat → BitVector → Nat → BitVector
  | 0, vect, _ => vect
  | count + 1, vect, i =>
    let opposite_el_index := toInt ((vect.length : Int) - (i : Int) - 1)
    let tmp := vect_get_bit vect i
    let vect1 := vect_set_bit vect i (vect_get_bit vect (toUInt opposite_el_index))
    let vect2 := vect_set_bit vect1 (toUInt opposite_el_index) tmp
    reverse_loop count vect2 (i + 1)

/-- The C function `vect_reverse`.  The loop bound is the truncating
quotient of `(int)vect->length` by `2`; the loop runs that many times when
the bound is positive and not at all otherwise. -/
def vect_reverse (vect : BitVector) : BitVector :=
  reverse_loop (Int.tdiv (toInt vect.length) 2).toNat vect 0

/-- The indices that the loop of `vect_reverse` passes to `vect_set_bit`, in
the order of the calls. -/
def reverse_loop_writes : Nat → BitVector → Nat → List Nat
  | 0, _, _ => []
  | count + 1, vect, i =>
    let opposite_el_index := toInt ((vect.length : Int) - (i : Int) - 1)
    let tmp := vect_get_bit vect i
    let vect1 := vect_set_bit vect i (vect_get_bit vect (toUInt opposite_el_index))
    let vect2 := vect_set_bit vect1 (toUInt opposite_el_index) tmp
    i :: toUInt opposite_el_index :: reverse_loop_writes count vect2 (i + 1)

/-- The indices `vect_reverse` writes. -/
def vect_reverse_writes (vect : BitVector) : List Nat :=
  reverse_loop_writes (Int.tdiv (toInt vect.length) 2).toNat vect 0

/-! ## Specification vocabulary -/

/-- The binary digit stored at physical bit position `p` of a buffer:
digit `p % 8` of byte `p / 8`. -/
def pbit (d : Nat → Nat) (p : Nat) : Bool := (d (p / 8)).testBit (p % 8)

/-- Every cell of the buffer holds a `uint8_t` value. -/
def BytesOK (d : Nat → Nat) : Prop := ∀ k, d k < 256

/-! ## The float encoder (`floating_point.c`, `floating_point.h`)

A `float` is modelled by the rational number it denotes: the values the
encoder works on are dyadic rationals, and every product by `2`, difference
and truncation it computes on them is exact.  `+infinity` is a separate
value of `FloatVal`. -/

def EXP_PRECISION : Nat := 8
def FRACT_PRECISION : Nat := 23
def EXP_BIAS : Int := 127

/-- The macro `MAX_EXP`: `(int) pow(2, EXP_PRECISION) - EXP_BIAS - 1`. -/
def MAX_EXP : Int := (2 : Int) ^ EXP_PRECISION - EXP_BIAS - 1

/-- The macro `MIN_EXP`: `-EXP_BIAS`. -/
def MIN_EXP : Int := -EXP_BIAS

/-- The macro `MIN(i, j)`: `(i < j ? i : j)`. -/
def MIN (i j : Int) : Int := if i < j then i else j

/-- A value of type `float`: a finite value or `+infinity`. -/
inductive FloatVal where
  | fin (q : ℚ)
  | inf

/-- Conversion of a finite floating value to an integer type: the fractional
part is discarded (truncation toward zero). -/
def truncQ (q : ℚ) : Int := Int.tdiv q.num (q.den : Int)

/-- First loop of `get_exp_base_two`:
`for (pos = 0; int_part != 0 && pos <= MAX_EXP + 1; pos++) int_part /= 2;`.
`pos` grows by one per iteration and the test bounds it by `MAX_EXP + 1`, so
the loop body runs at most `MAX_EXP + 2` times. -/
def exp_loop_int : Nat → Int → Int → Int
  | 0, _, pos => pos
  | fuel + 1, int_part, pos =>
    if int_part ≠ 0 ∧ pos ≤ MAX_EXP + 1 then exp_loop_int fuel (Int.tdiv int_part 2) (pos + 1)
    else pos

/-- Second loop of `get_exp_base_two`:
`for (pos = 0; f < 1 && pos >= MIN_EXP; pos--) f *= 2;`.
`pos` decreases by one per iteration and the test bounds it by `MIN_EXP`, so
the loop body runs at most `1 - MIN_EXP` times. -/
def exp_loop_frac : Nat → ℚ → Int → Int
  | 0, _, pos => pos
  | fuel + 1, f, pos =>
    if f < 1 ∧ pos ≥ MIN_EXP then exp_loop_frac fuel (f * 2) (pos - 1)
    else pos

/-- The C function `get_exp_base_two`. -/
def get_exp_base_two (f : FloatVal) : Int :=
  match f with
  | FloatVal.inf => MAX_EXP
  | FloatVal.fin q =>
    if q = 0 then MIN_EXP
    else if q ≥ 1 then
      let int_part := toInt (truncQ q)
      exp_loop_int (MAX_EXP + 2).toNat int_part 0 - 1
    else
      exp_loop_frac (1 - MIN_EXP).toNat q 0

/-- The value `int power_of_two = pow(2, bit_pos)` receives: `2^bit_pos` when
that fits an `int`, the truncation `0` of a proper fraction for a negative
`bit_pos`, and the out-of-range result `INT_MIN` of the conversion
otherwise. -/
def pow_two_int (bit_pos : Int) : Int :=
  if bit_pos < 0 then 0
  else if bit_pos < 31 then (2 : Int) ^ bit_pos.toNat
  else -2147483648

/-- State of the two fill loops of `float_to_binary`. -/
structure FillState where
  int_part : Nat
  decimal_part : ℚ
  first_bit_discarded : Bool
  vect : BitVector

/-- Loop over the integer part in `float_to_binary`:
`for (int i = 0; i <= int_part_vect.length; i++)`; `count` is the number of
iterations left.  `int_part` is an `unsigned int`, so the comparisons with
`power_of_two` and the subtraction are done in `unsigned int`. -/
def int_part_loop (int_part_length : Int) : Nat → FillState → Nat → FillState
  | 0, st, _ => st
  | count + 1, st, i =>
    let bit_pos := int_part_length - (i : Int)
    let power_of_two := pow_two_int bit_pos
    if i = 0 ∧ st.int_part ≥ toUInt power_of_two then
      int_part_loop int_part_length count
        { st with int_part := toUInt ((st.int_part : Int) - (toUInt power_of_two : Int)),
                  first_bit_discarded := true } (i + 1)
    else if toUInt power_of_two > st.int_part then
      int_part_loop int_part_length count
        { st with vect := vect_set_bit st.vect (toUInt ((i : Int) - 1)) 0 } (i + 1)
    else
      int_part_loop int_part_length count
        { st with vect := vect_set_bit st.vect (toUInt ((i : Int) - 1)) 1,
                  int_part := toUInt ((st.int_part : Int) - (toUInt power_of_two : Int)) }
        (i + 1)

/-- Loop over the decimal part in `float_to_binary`:
`for (int i = 0; i <= decimal_part_vect.length && decimal_part != 0;)`.
The counter only advances once the first bit has been discarded, so the loop
carries fuel: a nonzero `float` below `1` reaches `1` after at most 149
doublings, after which the counter advances at every iteration. -/
def decimal_part_loop : Nat → FillState → Nat → Option FillState
  | 0, _, _ => none
  | fuel + 1, st, i =>
    if i ≤ st.vect.length ∧ st.decimal_part ≠ 0 then
      let d := st.decimal_part * 2
      if st.first_bit_discarded then
        if d ≥ 1 then
          decimal_part_loop fuel
            { st with vect := vect_set_bit st.vect i 1, decimal_part := d - 1 } (i + 1)
        else
          decimal_part_loop fuel
            { st with vect := vect_set_bit st.vect i 0, decimal_part := d } (i + 1)
      else if d ≥ 1 then
        decimal_part_loop fuel { st with decimal_part := d - 1, first_bit_discarded := true } i
      else
        decimal_part_loop fuel { st with decimal_part := d } i
    else some st

/-- The bytes of an `int` object in memory (little-endian host, the one
`IS_BIG_ENDIAN false` is set for): cell `k` holds byte `k` of the value. -/
def int_bytes (x : Int) (k : Nat) : Nat := (toUInt x / 256 ^ k) % 256

/-- The C function `float_to_binary`, on a finite value.  `init_result`,
`init_int` and `init_dec` are the contents of the three buffers `malloc`
returns (for the result, the integer-part vector and the decimal-part
vector). -/
def float_to_binary (init_result init_int init_dec : Nat → Nat) (f0 : ℚ) :
    Option BitVector :=
  let float_vect : BitVector :=
    { data := init_result, length := FRACT_PRECISION + EXP_PRECISION + 1 }
  let sign : Nat := if f0 < 0 then 1 else 0
  let f : ℚ := if f0 < 0 then f0 * (-1) else f0
  let sign_vect : BitVector := { data := fun _ => sign, length := 1 }
  let exponent := get_exp_base_two (FloatVal.fin f)
  let biased_exp := toInt (exponent + EXP_BIAS)
  let exp_vect0 : BitVector := { data := int_bytes biased_exp, length := 4 }
  let exp_vect1 : BitVector := if IS_BIG_ENDIAN then vect_reverse exp_vect0 else exp_vect0
  let exp_vect2 : BitVector := { exp_vect1 with length := EXP_PRECISION }
  let exp_vect := vect_reverse exp_vect2
  let int_part := toUInt (truncQ f)
  let decimal_part := f - (int_part : ℚ)
  let int_part_length : Int := if exponent ≥ 0 then exponent else 0
  let int_part_vect : BitVector :=
    { data := init_int, length := toSizeT (MIN (FRACT_PRECISION : Int) int_part_length) }
  let decimal_part_vect : BitVector :=
    { data := init_dec,
      length := toSizeT ((FRACT_PRECISION : Int) - (int_part_vect.length : Int)) }
  let st0 : FillState :=
    { int_part := int_part, decimal_part := decimal_part,
      first_bit_discarded := false, vect := int_part_vect }
  let st1 := int_part_loop int_part_length (int_part_vect.length + 1) st0 0
  (decimal_part_loop 200 { st1 with vect := decimal_part_vect } 0).bind fun st2 =>
  (vect_copy sign_vect float_vect 0).bind fun fv1 =>
  (vect_copy exp_vect fv1 1).bind fun fv2 =>
  (vect_copy st1.vect fv2 (1 + EXP_PRECISION)).bind fun fv3 =>
  (vect_copy st2.vect fv3 (toUInt ((1 + EXP_PRECISION + st1.vect.length : Nat) : Int))).bind
    fun fv4 => some (if IS_BIG_ENDIAN then fv4 else vect_reverse fv4)

/-! ## Stringification (`bit_vector.c`, lines 7-53 and 176-190)

A `char` buffer is a total map from offsets to characters; the string a
`char*` denotes is the run of characters before the first null character. -/

/-- The C function `bit_as_char`. -/
def bit_as_char (byte : Nat) : Char :=
  if byte_to_bit byte = 0 then '0' else '1'

/-- The C function `byte_to_str`: the loop writes cells `0..7` of a fresh
nine-character buffer and the cell `8` receives the terminator, so the
string the buffer holds is the list of the eight characters written. -/
def byte_to_str (byte : Nat) : List Char :=
  (List.range BITS_PER_BYTE).map (fun i => bit_as_char (get_bit byte i))

/-- The scan of `strcat` for the terminator of its destination, from offset
`k` on.  `none` when no null character is met within the fuel. -/
def find_nul (buf : Nat → Char) : Nat → Nat → Option Nat
  | 0, _ => none
  | fuel + 1, k => if buf k = Char.ofNat 0 then some k else find_nul buf fuel (k + 1)

/-- Stores the characters of `s` from offset `k` on, followed by a
terminator. -/
def write_str (buf : Nat → Char) (k : Nat) : List Char → Nat → Char
  | [] => Function.update buf k (Char.ofNat 0)
  | c :: cs => write_str (Function.update buf k c) (k + 1) cs

/-- The library function `strcat(dest, src)`, `src` being given as the string
it holds.  `fuel` bounds the scan for the terminator of `dest`. -/
def strcat (fuel : Nat) (dest : Nat → Char) (src : List Char) : Option (Nat → Char) :=
  match find_nul dest fuel 0 with
  | none => none
  | some k => some (write_str dest k src)

/-- Loop of `bytes_to_str`: `for (int i = 0; i < n; i++)`, an `unsigned int`
comparison; `count` is the number of iterations left.  `pos` is an `int`. -/
def bytes_to_str_loop (byte_arr : Nat → Nat) (n : Nat) (delimiter : Char) (fuel : Nat) :
    Nat → (Nat → Char) → Nat → Int → Option (Nat → Char)
  | 0, bytestr, _, _ => some bytestr
  | count + 1, bytestr, i, pos =>
    match strcat fuel bytestr (byte_to_str (byte_arr i)) with
    | none => none
    | some bytestr1 =>
      let pos1 := toInt (pos + BITS_PER_BYTE)
      if (i : Int) ≠ toUInt ((n : Int) - 1) ∧ delimiter ≠ Char.ofNat 0 then
        let bytestr2 := Function.update bytestr1 pos1.toNat delimiter
        let bytestr3 := Function.update bytestr2 (pos1 + 1).toNat (Char.ofNat 0)
        bytes_to_str_loop byte_arr n delimiter fuel count bytestr3 (i + 1) (toInt (pos1 + 1))
      else
        bytes_to_str_loop byte_arr n delimiter fuel count bytestr1 (i + 1) pos1

/-- The C function `bytes_to_str`.  `init` is the content of the buffer
`malloc` returns; it is not cleared before the first `strcat`.  The scan of
`strcat` is given the size of the allocation plus one as fuel. -/
def bytes_to_str (init : Nat → Char) (byte_arr : Nat → Nat) (n : Nat) (delimiter : Char) :
    Option (Nat → Char) :=
  let str_length0 := toSizeT ((BITS_PER_BYTE : Int) * (n : Int))
  let str_length :=
    if delimiter ≠ Char.ofNat 0 then toSizeT ((str_length0 : Int) + (toUInt ((n : Int) - 1) : Int))
    else str_length0
  bytes_to_str_loop byte_arr n delimiter (str_length + 1) n init 0 0

/-- The C function `vect_to_str`, returning the buffer `str` points to. -/
def vect_to_str (init : Nat → Char) (vect : BitVector) (delimiter : Char) :
    Option (Nat → Char) :=
  let num_bytes := toInt (get_num_bytes vect.length)
  match bytes_to_str init vect.data (toUInt num_bytes) delimiter with
  | none => none
  | some str =>
    let delim_space : Int := if delimiter ≠ Char.ofNat 0 then toInt (num_bytes - 1) else 0
    if vect.length < toSizeT (toInt (num_bytes * BITS_PER_BYTE)) then
      some (Function.update str (toSizeT ((vect.length : Int) + delim_space)) (Char.ofNat 0))
    else some str

/-- The string a `char*` denotes: the characters of the buffer from offset
`k` up to the first null character.  `none` when none is met within the
fuel. -/
def c_string (buf : Nat → Char) : Nat → Nat → Option (List Char)
  | 0, _ => none
  | fuel + 1, k =>
    if buf k = Char.ofNat 0 then some []
    else
      match c_string buf fuel (k + 1) with
      | none => none
      | some cs => some (buf k :: cs)

/-! ## Write traces of the fill loops

The two fill loops of `float_to_binary` decide what to write from the number
being encoded alone, never from the content of the vector they fill.  The
functions below are the same loops with the vector left out: they return the
list of `(index, value)` pairs passed to `vect_set_bit`, in order. -/

/-- Applies a list of `vect_set_bit` calls in order. -/
def apply_writes (v : BitVector) : List (Nat × Nat) → BitVector
  | [] => v
  | w :: ws => apply_writes (vect_set_bit v w.1 w.2) ws

/-- The physical bit at position `p` after a list of `vect_set_bit` calls on
a vector of length `len` whose bit `p` was `b`. -/
def final_bit (len p : Nat) : List (Nat × Nat) → Bool → Bool
  | [], b => b
  | w :: ws, b => final_bit len p ws (if w.1 < len ∧ p = w.1 then decide (w.2 ≠ 0) else b)

/-- The writes of `int_part_loop`, with the final `int_part` and
`first_bit_discarded`. -/
def int_part_writes (int_part_length : Int) : Nat → Nat → Bool → Nat →
    List (Nat × Nat) × Nat × Bool
  | 0, int_part, fbd, _ => ([], int_part, fbd)
  | count + 1, int_part, fbd, i =>
    let bit_pos := int_part_length - (i : Int)
    let power_of_two := pow_two_int bit_pos
    if i = 0 ∧ int_part ≥ toUInt power_of_two then
      int_part_writes int_part_length count
        (toUInt ((int_part : Int) - (toUInt power_of_two : Int))) true (i + 1)
    else if toUInt power_of_two > int_part then
      let r := int_part_writes int_part_length count int_part fbd (i + 1)
      ((toUInt ((i : Int) - 1), 0) :: r.1, r.2)
    else
      let r := int_part_writes int_part_length count
        (toUInt ((int_part : Int) - (toUInt power_of_two : Int))) fbd (i + 1)
      ((toUInt ((i : Int) - 1), 1) :: r.1, r.2)

/-- The writes of `decimal_part_loop` on a vector of length `len`, with the
final `decimal_part` and `first_bit_discarded`. -/
def decimal_part_writes (len : Nat) : Nat → ℚ → Bool → Nat →
    Option (List (Nat × Nat) × ℚ × Bool)
  | 0, _, _, _ => none
  | fuel + 1, decimal_part, fbd, i =>
    if i ≤ len ∧ decimal_part ≠ 0 then
      let d := decimal_part * 2
      if fbd then
        if d ≥ 1 then
          match decimal_part_writes len fuel (d - 1) fbd (i + 1) with
          | none => none
          | some r => some ((i, 1) :: r.1, r.2)
        else
          match decimal_part_writes len fuel d fbd (i + 1) with
          | none => none
          | some r => some ((i, 0) :: r.1, r.2)
      else if d ≥ 1 then decimal_part_writes len fuel (d - 1) true i
      else decimal_part_writes len fuel d fbd i
    else some ([], decimal_part, fbd)

/-! ## The fields of the encoding, as `float_to_binary` computes them -/

/-- The sign byte. -/
def enc_sign (f0 : ℚ) : Nat := if f0 < 0 then 1 else 0

/-- The magnitude the encoder goes on with. -/
def enc_abs (f0 : ℚ) : ℚ := if f0 < 0 then f0 * (-1) else f0

/-- The exponent the encoder computes. -/
def enc_exponent (f0 : ℚ) : Int := get_exp_base_two (FloatVal.fin (enc_abs f0))

/-- The exponent vector after its truncation to eight bits and its reversal. -/
def enc_exp_vect (f0 : ℚ) : BitVector :=
  vect_reverse { data := int_bytes (toInt (enc_exponent f0 + EXP_BIAS)), length := EXP_PRECISION }

/-- The variable `int_part_length`. -/
def enc_int_length (f0 : ℚ) : Int := if enc_exponent f0 ≥ 0 then enc_exponent f0 else 0

/-- The length of `int_part_vect`. -/
def enc_L (f0 : ℚ) : Nat := toSizeT (MIN (FRACT_PRECISION : Int) (enc_int_length f0))

/-- The length of `decimal_part_vect`. -/
def enc_D (f0 : ℚ) : Nat := toSizeT ((FRACT_PRECISION : Int) - (enc_L f0 : Int))

/-- The variable `int_part` before the fill loops. -/
def enc_int_part (f0 : ℚ) : Nat := toUInt (truncQ (enc_abs f0))

/-- The trace of the loop over the integer part. -/
def enc_int_trace (f0 : ℚ) : List (Nat × Nat) × Nat × Bool :=
  int_part_writes (enc_int_length f0) (enc_L f0 + 1) (enc_int_part f0) false 0

/-- The trace of the loop over the decimal part. -/
def enc_dec_trace (f0 : ℚ) : Option (List (Nat × Nat) × ℚ × Bool) :=
  decimal_part_writes (enc_D f0) 200 (enc_abs f0 - (enc_int_part f0 : ℚ))
    (enc_int_trace f0).2.2 0

/-- Bit `q` of the encoding in the order in which it is assembled (sign
first), before the final reversal.  `bi` and `bd` are the bits that the
buffers of the integer-part and decimal-part vectors hold at the position
copied to `q` before the fill loops run; `ws2` is the list of writes of the
loop over the decimal part. -/
def enc_big_bit (f0 : ℚ) (ws2 : List (Nat × Nat)) (q : Nat) (bi bd : Bool) : Bool :=
  if q = 0 then pbit (fun _ => enc_sign f0) 0
  else if q < 9 then pbit (enc_exp_vect f0).data (q - 1)
  else if q < 9 + enc_L f0 then final_bit (enc_L f0) (q - 9) (enc_int_trace f0).1 bi
  else final_bit (enc_D f0) (q - 9 - enc_L f0) ws2 bd

/-- Bit `i` of the vector `float_to_binary` returns, `none` when the loop over
the decimal part runs out of fuel. -/
def enc_bit (f0 : ℚ) (i : Nat) (bi bd : Bool) : Option Bool :=
  (enc_dec_trace f0).map (fun t => enc_big_bit f0 t.1 (31 - i) bi bd)

/-! ## The demonstration of `main.c` -/

/-- The value of `float f = 15932.5497;`: the single-precision number nearest
to the literal, `16314931 / 1024 = 15932.5498046875`. -/
def main_float : ℚ := 16314931 / 1024

/-- The string `main` prints as the computed binary representation:
`vect_to_str(float_to_binary(f), ' ')`, read up to its terminator.
`init_result`, `init_int` and `init_dec` are the contents of the buffers the
encoder allocates, `init_str` that of the buffer `bytes_to_str` allocates. -/
def main_computed (init_result init_int init_dec : Nat → Nat) (init_str : Nat → Char) :
    Option (List Char) :=
  (float_to_binary init_result init_int init_dec main_float).bind fun float_vect1 =>
  (vect_to_str init_str float_vect1 ' ').bind fun str => c_string str 64 0

/-! ## Reading an encoding back -/

/-- The number whose binary digits, least significant first, are the bits
`lo, lo + 1, ..., lo + count - 1` of the vector. -/
def bits_value (r : BitVector) (lo : Nat) : Nat → Nat
  | 0 => 0
  | count + 1 => bits_value r lo count + vect_get_bit r (lo + count) * 2 ^ count

/-- The value an encoding denotes under the format described in
`floating_point.c`: with `s` the bit `31`, `E` the number in bits `23..30`
and `F` the number in bits `0..22`, the value `(-1)^s * 2^(E - 127) * (1 + F / 2^23)`. -/
def decoded_value (r : BitVector) : ℚ :=
  (-1 : ℚ) ^ (vect_get_bit r 31)
    * (2 : ℚ) ^ ((bits_value r 23 8 : Int) - 127)
    * (1 + (bits_value r 0 23 : ℚ) / 2 ^ 23)

/-- The rendering of a vector that the specification describes: the bits
`0..length-1` in index order, `'1'` where `vect_get_bit` is `1` and `'0'`
otherwise, in groups of eight (the last group holding the remaining bits),
with the delimiter between consecutive groups unless it is the null
character. -/
def render_spec (v : BitVector) (d : Char) : List Char :=
  ((List.range ((v.length + 7) / 8)).map fun g =>
    ((List.range (min 8 (v.length - 8 * g))).map fun j =>
      if vect_get_bit v (8 * g + j) = 1 then '1' else '0')
    ++ (if g + 1 < (v.length + 7) / 8 ∧ d ≠ Char.ofNat 0 then [d] else [])).flatten

/-- The string `vect_to_str(vect, delimiter)` returns, read up to its
terminator; `init` is the content of the buffer `malloc` returns in
`bytes_to_str`. -/
def vect_to_str_string (init : Nat → Char) (vect : BitVector) (delimiter : Char) :
    Option (List Char) :=
  (vect_to_str init vect delimiter).bind fun str => c_string str (vect.length + vect.length / 8 + 64) 0

/-- An in-place operation that turned `v` into `r` kept the length and every
physical bit of the backing store at a position that is not a logical index
of `v` (the padding bits of the last byte and everything behind them). -/
def FrameOK (v r : BitVector) : Prop :=
  r.length = v.length ∧ ∀ p, v.length ≤ p → pbit r.data p = pbit v.data p

/-! ## Lemmas on the primitives -/

theorem land_mod_256 (b m : Nat) (hm : m < 256) : b &&& m = (b % 256) &&& m := by
  apply Nat.eq_of_testBit_eq
  intro i
  simp only [Nat.testBit_land]
  by_cases hi : i < 8
  · have : (b % 256).testBit i = b.testBit i := by
      have h := Nat.testBit_mod_two_pow b 8 i
      simpa [hi] using h
    rw [this]
  · have h2 : m.testBit i = false := by
      apply Nat.testBit_eq_false_of_lt
      calc m < 256 := hm
        _ = 2 ^ 8 := by norm_num
        _ ≤ 2 ^ i := Nat.pow_le_pow_right (by norm_num) (by omega)
    simp [h2]

theorem get_bit_mod (b o : Nat) (ho : o < 8) : get_bit b o = get_bit (b % 256) o := by
  have hm : get_mask o < 256 := by
    unfold get_mask BITS_PER_BYTE MAX_BYTE_VALUE
    split_ifs <;> omega
  unfold get_bit
  simp only [land_mod_256 b _ hm]

theorem set_bit_mod (b o x : Nat) (ho : o < 8) : set_bit b o x = set_bit (b % 256) o x := by
  have hm : get_inverted_mask o < 256 := by
    unfold get_inverted_mask BITS_PER_BYTE MAX_BYTE_VALUE
    split_ifs <;> omega
  have hge : ¬ o ≥ BITS_PER_BYTE := by unfold BITS_PER_BYTE; omega
  unfold set_bit
  simp only [hge, if_false, land_mod_256 b _ hm]

theorem set_bit_byte_to_bit (b o x : Nat) : set_bit b o x = set_bit b o (byte_to_bit x) := by
  unfold set_bit byte_to_bit
  by_cases hx : x = 0 <;> simp [hx]

set_option maxRecDepth 100000 in
theorem get_bit_small : ∀ b < 256, ∀ o < 8,
    get_bit b o = if b.testBit o then 1 else 0 := by
  decide

set_option maxRecDepth 100000 in
theorem set_bit_small : ∀ b < 256, ∀ o < 8, ∀ x < 2, ∀ k < 8,
    (set_bit b o x).testBit k = if k = o then decide (x = 1) else b.testBit k := by
  decide

set_option maxRecDepth 100000 in
theorem set_bit_small_lt : ∀ b < 256, ∀ o < 8, ∀ x < 2, set_bit b o x < 256 := by
  decide

theorem byte_to_bit_lt (x : Nat) : byte_to_bit x < 2 := by
  unfold byte_to_bit; split_ifs <;> omega

theorem testBit_mod_256 (b k : Nat) (hk : k < 8) : (b % 256).testBit k = b.testBit k := by
  have h := Nat.testBit_mod_two_pow b 8 k
  simpa [hk] using h

/-- Reading a bit of a byte is reading its binary digit. -/
theorem get_bit_testBit (b o : Nat) (ho : o < 8) :
    get_bit b o = if b.testBit o then 1 else 0 := by
  rw [get_bit_mod b o ho, get_bit_small (b % 256) (Nat.mod_lt _ (by norm_num)) o ho,
    testBit_mod_256 b o ho]

/-- Writing a bit of a byte leaves a value that fits a byte. -/
theorem set_bit_lt (b o x : Nat) (ho : o < 8) : set_bit b o x < 256 := by
  rw [set_bit_mod b o x ho, set_bit_byte_to_bit]
  exact set_bit_small_lt _ (Nat.mod_lt _ (by norm_num)) o ho _ (byte_to_bit_lt x)

/-- Binary digits of a byte after `set_bit`, below position 8. -/
theorem set_bit_testBit (b o x k : Nat) (ho : o < 8) (hk : k < 8) :
    (set_bit b o x).testBit k = if k = o then decide (x ≠ 0) else b.testBit k := by
  rw [set_bit_mod b o x ho, set_bit_byte_to_bit,
    set_bit_small _ (Nat.mod_lt _ (by norm_num)) o ho _ (byte_to_bit_lt x) k hk,
    testBit_mod_256 b k hk]
  by_cases hx : x = 0 <;> simp [byte_to_bit, hx]

theorem get_offset_lt (i : Nat) : get_offset i < 8 := by
  unfold get_offset BITS_PER_BYTE; omega

theorem vect_get_bit_eq (v : BitVector) (i : Nat) (hi : i < v.length) :
    vect_get_bit v i = if pbit v.data i then 1 else 0 := by
  unfold vect_get_bit
  rw [if_neg (by omega), get_bit_testBit _ _ (get_offset_lt i)]
  rfl

theorem vect_get_bit_of_ge (v : BitVector) (i : Nat) (hi : v.length ≤ i) :
    vect_get_bit v i = 255 := by
  unfold vect_get_bit
  rw [if_pos hi]; rfl

theorem vect_set_bit_length (v : BitVector) (i x : Nat) :
    (vect_set_bit v i x).length = v.length := by
  unfold vect_set_bit
  split_ifs <;> rfl

theorem vect_set_bit_of_ge (v : BitVector) (i x : Nat) (hi : v.length ≤ i) :
    vect_set_bit v i x = v := by
  unfold vect_set_bit
  rw [if_pos hi]

theorem pbit_vect_set_bit (v : BitVector) (i x p : Nat) (hi : i < v.length) :
    pbit (vect_set_bit v i x).data p = if p = i then decide (x ≠ 0) else pbit v.data p := by
  unfold vect_set_bit
  rw [if_neg (by omega)]
  unfold pbit get_byte_index get_offset BITS_PER_BYTE
  simp only
  by_cases hb : p / 8 = i / 8
  · rw [hb, Function.update_same, set_bit_testBit _ _ _ _ (by omega) (by omega)]
    by_cases hpi : p = i
    · subst hpi; simp
    · have : p % 8 ≠ i % 8 := by omega
      simp [this, hpi]
  · rw [Function.update_noteq hb]
    have : p ≠ i := by rintro rfl; exact hb rfl
    simp [this]

theorem vect_set_bit_bytesOK (v : BitVector) (i x : Nat) (h : BytesOK v.data) :
    BytesOK (vect_set_bit v i x).data := by
  unfold vect_set_bit
  split_ifs with hi
  · exact h
  · intro k
    simp only
    by_cases hk : k = get_byte_index i
    · subst hk
      rw [Function.update_same]
      exact set_bit_lt _ _ _ (get_offset_lt i)
    · rw [Function.update_noteq hk]
      exact h k

theorem data_ext (d1 d2 : Nat → Nat) (h1 : BytesOK d1) (h2 : BytesOK d2)
    (h : ∀ p, pbit d1 p = pbit d2 p) : d1 = d2 := by
  funext k
  apply Nat.eq_of_testBit_eq
  intro j
  by_cases hj : j < 8
  · have := h (8 * k + j)
    unfold pbit at this
    have e1 : (8 * k + j) / 8 = k := by omega
    have e2 : (8 * k + j) % 8 = j := by omega
    rwa [e1, e2] at this
  · have hp : (256 : Nat) ≤ 2 ^ j := by
      calc (256 : Nat) = 2 ^ 8 := by norm_num
        _ ≤ 2 ^ j := Nat.pow_le_pow_right (by norm_num) (by omega)
    rw [Nat.testBit_eq_false_of_lt (lt_of_lt_of_le (h1 k) hp),
      Nat.testBit_eq_false_of_lt (lt_of_lt_of_le (h2 k) hp)]

/-- The value `vect_get_bit` returns after a `vect_set_bit` on the same vector. -/
theorem vect_get_set (v : BitVector) (i x j : Nat) (hi : i < v.length) (hj : j < v.length) :
    vect_get_bit (vect_set_bit v i x) j
      = if j = i then (if x = 0 then 0 else 1) else vect_get_bit v j := by
  rw [vect_get_bit_eq _ _ (by rw [vect_set_bit_length]; exact hj), pbit_vect_set_bit _ _ _ _ hi,
    vect_get_bit_eq _ _ hj]
  by_cases hji : j = i
  · by_cases hx : x = 0 <;> simp [hji, hx]
  · simp [hji]

/-- C1. After `vect_set_bit(v, i, x)` with `i < v.length`, `vect_get_bit(v, i)`
is `1` when `x` is nonzero and `0` when `x` is zero, and every other index
below `v.length` reads as before the call. -/
theorem set_get_roundtrip (v : BitVector) (i x : Nat) (hi : i < v.length) :
    vect_get_bit (vect_set_bit v i x) i = (if x = 0 then 0 else 1) ∧
    ∀ j, j < v.length → j ≠ i →
      vect_get_bit (vect_set_bit v i x) j = vect_get_bit v j := by
  refine ⟨?_, ?_⟩
  · rw [vect_get_set v i x i hi hi, if_pos rfl]
  · intro j hj hji
    rw [vect_get_set v i x j hi hj, if_neg hji]

theorem set_get_roundtrip_witness :
    (3 : Nat) < (BitVector.mk (fun _ => 170) 12).length ∧
    (vect_get_bit (vect_set_bit (BitVector.mk (fun _ => 170) 12) 3 7) 3 = (if 7 = 0 then 0 else 1) ∧
    ∀ j, j < (BitVector.mk (fun _ => 170) 12).length → j ≠ 3 →
      vect_get_bit (vect_set_bit (BitVector.mk (fun _ => 170) 12) 3 7) j
        = vect_get_bit (BitVector.mk (fun _ => 170) 12) j) :=
  ⟨by decide, set_get_roundtrip (BitVector.mk (fun _ => 170) 12) 3 7 (by decide)⟩

/-! ## Conversions on values in range -/

theorem toUInt_natCast (j : Nat) (h : j < 4294967296) : toUInt (j : Int) = j := by
  unfold toUInt; omega

theorem toSizeT_natCast (j : Nat) (h : j < 18446744073709551616) : toSizeT (j : Int) = j := by
  unfold toSizeT; omega

theorem toInt_natCast (j : Nat) (h : j < 2147483648) : toInt (j : Int) = j := by
  unfold toInt; omega

theorem toInt_neg_of_ge (j : Nat) (h1 : 2147483648 ≤ j) (h2 : j < 4294967296) :
    toInt (j : Int) < 0 ∧ -2147483648 ≤ toInt (j : Int) := by
  unfold toInt; omega

theorem toSizeT_of_neg (x : Int) (h1 : x < 0) (h2 : -2147483648 ≤ x) :
    18446744071562067968 ≤ toSizeT x := by
  unfold toSizeT; omega

/-! ## Right shift -/

theorem right_shift_inner_exit (s fuel : Nat) (v : BitVector) (j : Int) (prev : Nat)
    (hf : 1 ≤ fuel) (hj : ¬ toSizeT j < v.length) :
    right_shift_inner s fuel v j prev = some v := by
  obtain ⟨f, rfl⟩ : ∃ f, fuel = f + 1 := ⟨fuel - 1, by omega⟩
  simp only [right_shift_inner, if_neg hj]

theorem dvd_sub_step (s p j : Nat) (hpj : p ≠ j) :
    (j ≤ p ∧ s ∣ (p - j)) ↔ (j + s ≤ p ∧ s ∣ (p - (j + s))) := by
  constructor
  · rintro ⟨h1, h2⟩
    have hpos : 0 < p - j := by omega
    have hle : s ≤ p - j := Nat.le_of_dvd hpos h2
    refine ⟨by omega, ?_⟩
    have : p - (j + s) = (p - j) - s := by omega
    rw [this]
    exact Nat.dvd_sub' h2 (dvd_refl s)
  · rintro ⟨h1, h2⟩
    refine ⟨by omega, ?_⟩
    have : p - j = (p - (j + s)) + s := by omega
    rw [this]
    exact Dvd.dvd.add h2 (dvd_refl s)

theorem right_shift_inner_spec (s : Nat) (hs1 : 1 ≤ s) (hs : s < 2147483648) :
    ∀ (fuel : Nat) (v : BitVector) (j prev : Nat),
      v.length ≤ 2147483648 → j < 2147483648 → 1 ≤ fuel → v.length + 1 ≤ fuel + j →
      ∃ r, right_shift_inner s fuel v (j : Int) prev = some r ∧ r.length = v.length ∧
        ∀ p, pbit r.data p =
          if j ≤ p ∧ p < v.length ∧ s ∣ (p - j) then
            (if p = j then decide (prev ≠ 0) else pbit v.data (p - s))
          else pbit v.data p := by
  intro fuel
  induction fuel with
  | zero => intro v j prev _ _ h; omega
  | succ f ih =>
    intro v j prev hn hj _ hfuel
    by_cases hjn : j < v.length
    · have hc : toSizeT (j : Int) < v.length := by rw [toSizeT_natCast j (by omega)]; exact hjn
      simp only [right_shift_inner, if_pos hc, toUInt_natCast j (by omega)]
      have hlen1 : (vect_set_bit v j prev).length = v.length := vect_set_bit_length v j prev
      have key : ∀ p, p ≠ j → ((j ≤ p ∧ p < v.length ∧ s ∣ (p - j)) ↔
          (j + s ≤ p ∧ p < v.length ∧ s ∣ (p - (j + s)))) := by
        intro p hp
        have := dvd_sub_step s p j hp
        tauto
      by_cases hjs : j + s < 2147483648
      · have hcast : toInt ((j : Int) + (s : Int)) = ((j + s : Nat) : Int) := by
          rw [← Nat.cast_add]; exact toInt_natCast _ hjs
        rw [hcast]
        obtain ⟨r, hr, hrl, hrp⟩ := ih (vect_set_bit v j prev) (j + s) (vect_get_bit v j)
          (by rw [hlen1]; exact hn) hjs (by omega) (by rw [hlen1]; omega)
        refine ⟨r, hr, by rw [hrl, hlen1], ?_⟩
        intro p
        rw [hrp p, hlen1]
        by_cases hpj : p = j
        · subst hpj
          have h1 : ¬ (p + s ≤ p ∧ p < v.length ∧ s ∣ (p - (p + s))) := by omega
          have h2 : (p ≤ p ∧ p < v.length ∧ s ∣ (p - p)) := ⟨le_refl _, hjn, by simp⟩
          rw [if_neg h1, if_pos h2, if_pos rfl, pbit_vect_set_bit _ _ _ _ hjn, if_pos rfl]
        · by_cases hcond : j + s ≤ p ∧ p < v.length ∧ s ∣ (p - (j + s))
          · rw [if_pos hcond, if_pos ((key p hpj).2 hcond), if_neg hpj]
            by_cases hp2 : p = j + s
            · subst hp2
              rw [if_pos rfl, vect_get_bit_eq v j hjn]
              have : j + s - s = j := by omega
              rw [this]
              cases pbit v.data j <;> simp
            · rw [if_neg hp2, pbit_vect_set_bit _ _ _ _ hjn, if_neg (by omega)]
          · rw [if_neg hcond, if_neg (fun h => hcond ((key p hpj).1 h)),
              pbit_vect_set_bit _ _ _ _ hjn, if_neg hpj]
      · have hneg := toInt_neg_of_ge (j + s) (by omega) (by omega)
        have hcast : ((j : Int) + (s : Int)) = ((j + s : Nat) : Int) := by push_cast; rfl
        rw [hcast]
        have hbig := toSizeT_of_neg _ hneg.1 hneg.2
        rw [right_shift_inner_exit s f _ _ _ (by omega) (by rw [hlen1]; omega)]
        refine ⟨_, rfl, hlen1, ?_⟩
        intro p
        rw [pbit_vect_set_bit _ _ _ _ hjn]
        by_cases hpj : p = j
        · subst hpj
          have h2 : (p ≤ p ∧ p < v.length ∧ s ∣ (p - p)) := ⟨le_refl _, hjn, by simp⟩
          rw [if_pos rfl, if_pos h2, if_pos rfl]
        · have h1 : ¬ (j ≤ p ∧ p < v.length ∧ s ∣ (p - j)) := by
            intro h
            have := (key p hpj).1 h
            omega
          rw [if_neg hpj, if_neg h1]
    · have hc : ¬ toSizeT (j : Int) < v.length := by rw [toSizeT_natCast j (by omega)]; exact hjn
      rw [right_shift_inner_exit s _ v _ prev (by omega) hc]
      refine ⟨v, rfl, rfl, ?_⟩
      intro p
      rw [if_neg (by omega)]

theorem mod_eq_iff_dvd_sub (s p i : Nat) (hi : i < s) :
    (i ≤ p ∧ s ∣ (p - i)) ↔ p % s = i := by
  constructor
  · rintro ⟨h1, k, hk⟩
    have : p = i + s * k := by omega
    rw [this, Nat.add_mul_mod_self_left, Nat.mod_eq_of_lt hi]
  · intro h
    have h1 := Nat.div_add_mod p s
    have h2 : i ≤ p := by rw [← h]; exact Nat.mod_le p s
    refine ⟨h2, p / s, ?_⟩
    omega

theorem sub_mod_self (s p : Nat) (hp : s ≤ p) : (p - s) % s = p % s := by
  conv_rhs => rw [show p = (p - s) + s by omega]
  rw [Nat.add_mod_right]

theorem right_shift_outer_spec (s : Nat) (hs : s < 2147483648) :
    ∀ (fuel : Nat) (v : BitVector) (i : Nat),
      v.length ≤ 2147483648 → i ≤ s → s + 1 ≤ fuel + i →
      ∃ r, right_shift_outer s fuel v (i : Int) = some r ∧ r.length = v.length ∧
        ∀ p, pbit r.data p =
          if p < v.length ∧ i ≤ p % s then
            (if p < s then false else pbit v.data (p - s))
          else pbit v.data p := by
  intro fuel
  induction fuel with
  | zero => intro v i _ _ h; omega
  | succ f ih =>
    intro v i hn his hfuel
    by_cases hlt : i < s
    · have hc : toUInt (i : Int) < s := by rw [toUInt_natCast i (by omega)]; exact hlt
      obtain ⟨v1, hv1, hl1, hp1⟩ := right_shift_inner_spec s (by omega) hs
        (v.length + 1) v i 0 hn (by omega) (by omega) (by omega)
      have hcast : toInt ((i : Int) + 1) = ((i + 1 : Nat) : Int) := by
        have h0 : ((i : Int) + 1) = ((i + 1 : Nat) : Int) := by omega
        rw [h0]; exact toInt_natCast _ (by omega)
      obtain ⟨r, hr, hrl, hrp⟩ := ih v1 (i + 1) (by rw [hl1]; exact hn) (by omega) (by omega)
      refine ⟨r, ?_, by rw [hrl, hl1], ?_⟩
      · simp only [right_shift_outer, if_pos hc, hv1, hcast, hr]
      · intro p
        rw [hrp p, hl1]
        have hiff : ∀ q, (i ≤ q ∧ q < v.length ∧ s ∣ (q - i)) ↔ (q < v.length ∧ q % s = i) := by
          intro q
          have hq := mod_eq_iff_dvd_sub s q i hlt
          constructor
          · rintro ⟨a, b, c⟩
            exact ⟨b, hq.1 ⟨a, c⟩⟩
          · rintro ⟨b, e⟩
            exact ⟨(hq.2 e).1, b, (hq.2 e).2⟩
        simp only [hp1, hiff]
        by_cases hpn : p < v.length
        · by_cases hgt : i + 1 ≤ p % s
          · have h1 : i ≤ p % s := by omega
            by_cases hps : p < s
            · simp [hpn, hgt, h1, hps]
            · have hm := sub_mod_self s p (by omega)
              have h2 : ¬ (p - s) % s = i := by omega
              simp [hpn, hgt, h1, hps, h2]
          · by_cases heq : p % s = i
            · have h1 : i ≤ p % s := by omega
              by_cases hps : p < s
              · have h3 : p = i := by rw [← heq]; exact (Nat.mod_eq_of_lt hps).symm
                subst h3
                simp [hpn, hgt, hps, heq]
              · have h3 : p ≠ i := by omega
                simp [hpn, hgt, h1, hps, heq, h3]
            · have h1 : ¬ i ≤ p % s := by omega
              simp [hpn, hgt, h1, heq]
        · simp [hpn]
    · have hc : ¬ toUInt (i : Int) < s := by rw [toUInt_natCast i (by omega)]; exact hlt
      have his2 : i = s := by omega
      simp only [right_shift_outer, if_neg hc]
      refine ⟨v, rfl, rfl, ?_⟩
      intro p
      by_cases hs0 : s = 0
      · subst his2; subst hs0
        by_cases hpn : p < v.length
        · simp [hpn]
        · simp [hpn]
      · have : p % s < s := Nat.mod_lt _ (by omega)
        rw [if_neg (by omega)]

/-- The physical bits of the buffer after `vect_right_shift`, for a vector and
a shift that both fit an `int`. -/
theorem vect_right_shift_pbit (v : BitVector) (s : Nat)
    (hn : v.length ≤ 2147483648) (hs : s < 2147483648) :
    ∃ r, vect_right_shift v s = some r ∧ r.length = v.length ∧
      ∀ p, pbit r.data p =
        if p < v.length then (if p < s then false else pbit v.data (p - s))
        else pbit v.data p := by
  obtain ⟨r, hr, hrl, hrp⟩ := right_shift_outer_spec s hs (s + 1) v 0 hn (by omega) (by omega)
  refine ⟨r, hr, hrl, ?_⟩
  intro p
  rw [hrp p]
  by_cases hpn : p < v.length
  · simp [hpn]
  · simp [hpn]

theorem toInt_range (x : Int) : -2147483648 ≤ toInt x ∧ toInt x < 2147483648 := by
  unfold toInt; omega

theorem pbit_vect_set_bit_ne (v : BitVector) (i x p : Nat) (hp : p ≠ i) :
    pbit (vect_set_bit v i x).data p = pbit v.data p := by
  by_cases hi : i < v.length
  · rw [pbit_vect_set_bit _ _ _ _ hi, if_neg hp]
  · rw [vect_set_bit_of_ge _ _ _ (by omega)]

theorem toUInt_lt_of_toSizeT_lt (j : Int) (n : Nat) (hj1 : -2147483648 ≤ j)
    (hj2 : j < 2147483648) (hn : n < 9223372036854775808) (h : toSizeT j < n) :
    toUInt j < 2147483648 := by
  unfold toSizeT at h
  unfold toUInt
  omega

/-- Frame of the inner loop of `vect_right_shift`: no bit at a position from
`2^31` on is written. -/
theorem right_shift_inner_frame (s : Nat) :
    ∀ (fuel : Nat) (v : BitVector) (j : Int) (prev : Nat) (r : BitVector),
      right_shift_inner s fuel v j prev = some r →
      -2147483648 ≤ j → j < 2147483648 → v.length < 9223372036854775808 →
      r.length = v.length ∧ ∀ p, 2147483648 ≤ p → pbit r.data p = pbit v.data p := by
  intro fuel
  induction fuel with
  | zero => intro v j prev r h; simp [right_shift_inner] at h
  | succ f ih =>
    intro v j prev r h hj1 hj2 hn
    by_cases hc : toSizeT j < v.length
    · simp only [right_shift_inner, if_pos hc] at h
      have hr := toInt_range ((toUInt j : Int) + (s : Int))
      obtain ⟨h1, h2⟩ := ih _ _ _ _ h hr.1 hr.2 (by rw [vect_set_bit_length]; exact hn)
      refine ⟨by rw [h1, vect_set_bit_length], ?_⟩
      intro p hp
      have hlt := toUInt_lt_of_toSizeT_lt j v.length hj1 hj2 hn hc
      rw [h2 p hp, pbit_vect_set_bit_ne _ _ _ _ (by omega)]
    · simp only [right_shift_inner, if_neg hc, Option.some.injEq] at h
      subst h
      exact ⟨rfl, fun _ _ => rfl⟩

/-- Frame of `vect_right_shift`: whatever the shift, no bit at a position from
`2^31` on is written. -/
theorem right_shift_outer_frame (s : Nat) :
    ∀ (fuel : Nat) (v : BitVector) (i : Int) (r : BitVector),
      right_shift_outer s fuel v i = some r →
      -2147483648 ≤ i → i < 2147483648 → v.length < 9223372036854775808 →
      r.length = v.length ∧ ∀ p, 2147483648 ≤ p → pbit r.data p = pbit v.data p := by
  intro fuel
  induction fuel with
  | zero => intro v i r h; simp [right_shift_outer] at h
  | succ f ih =>
    intro v i r h hi1 hi2 hn
    by_cases hc : toUInt i < s
    · simp only [right_shift_outer, if_pos hc] at h
      cases hin : right_shift_inner s (v.length + 1) v i 0 with
      | none => rw [hin] at h; simp at h
      | some v1 =>
        rw [hin] at h
        simp only at h
        obtain ⟨a1, a2⟩ := right_shift_inner_frame s _ _ _ _ _ hin hi1 hi2 hn
        have hr := toInt_range (i + 1)
        obtain ⟨b1, b2⟩ := ih _ _ _ h hr.1 hr.2 (by rw [a1]; exact hn)
        exact ⟨by rw [b1, a1], fun p hp => by rw [b2 p hp, a2 p hp]⟩
    · simp only [right_shift_outer, if_neg hc, Option.some.injEq] at h
      subst h
      exact ⟨rfl, fun _ _ => rfl⟩

/-- C2, as stated, fails: on a vector of `2^31 + 1` bits whose bit `2^31 - 1`
is `1` and whose other bits are `0`, `vect_right_shift` by `1` does not put
the original bit `2^31 - 1` at index `2^31`. -/
theorem right_shift_counterexample :
    ¬ ∃ r, vect_right_shift
        (BitVector.mk (fun k => if k = 268435455 then 128 else 0) 2147483649) 1 = some r ∧
      ∀ i, i < 2147483649 →
        vect_get_bit r i = if i < 1 then 0
          else vect_get_bit
            (BitVector.mk (fun k => if k = 268435455 then 128 else 0) 2147483649) (i - 1) := by
  rintro ⟨r, hr, hbits⟩
  obtain ⟨hl, hf⟩ := right_shift_outer_frame 1 _ _ _ _ hr (by norm_num) (by norm_num)
    (by norm_num)
  have h1 := hbits 2147483648 (by norm_num)
  rw [vect_get_bit_eq r _ (by rw [hl]; norm_num), hf _ (le_refl _)] at h1
  revert h1
  decide

/-- C2 (amended). For a vector of length `n ≤ 2^31` and a shift
`s ≤ INT_MAX`, `vect_right_shift(v, s)` returns, keeps the length, and leaves
at every index `i < n` the bit `0` when `i < s` and the original bit `i - s`
otherwise; `s = 0` leaves `v` unchanged and `s ≥ n` makes every bit `0`. -/
theorem right_shift_spec (v : BitVector) (s : Nat)
    (hn : v.length ≤ 2147483648) (hs : s < 2147483648) :
    ∃ r, vect_right_shift v s = some r ∧ r.length = v.length ∧
      (∀ i, i < v.length →
        vect_get_bit r i = if i < s then 0 else vect_get_bit v (i - s)) ∧
      (s = 0 → r = v) ∧
      (v.length ≤ s → ∀ i, i < v.length → vect_get_bit r i = 0) := by
  obtain ⟨r, hr, hrl, hrp⟩ := vect_right_shift_pbit v s hn hs
  have hbits : ∀ i, i < v.length →
      vect_get_bit r i = if i < s then 0 else vect_get_bit v (i - s) := by
    intro i hi
    rw [vect_get_bit_eq r i (by rw [hrl]; exact hi), hrp i, if_pos hi]
    by_cases his : i < s
    · simp [his]
    · rw [if_neg his, if_neg his, vect_get_bit_eq v (i - s) (by omega)]
  refine ⟨r, hr, hrl, hbits, ?_, ?_⟩
  · intro hs0
    subst hs0
    have : vect_right_shift v 0 = some v := by
      simp [vect_right_shift, right_shift_outer, toUInt]
    rw [this] at hr
    exact (Option.some.inj hr).symm
  · intro hle i hi
    rw [hbits i hi, if_pos (by omega)]

theorem right_shift_spec_witness :
    ((BitVector.mk (fun _ => 181) 13).length ≤ 2147483648 ∧ 5 < 2147483648) ∧
    ∃ r, vect_right_shift (BitVector.mk (fun _ => 181) 13) 5 = some r ∧
      r.length = (BitVector.mk (fun _ => 181) 13).length ∧
      (∀ i, i < (BitVector.mk (fun _ => 181) 13).length →
        vect_get_bit r i = if i < 5 then 0
          else vect_get_bit (BitVector.mk (fun _ => 181) 13) (i - 5)) ∧
      (5 = 0 → r = BitVector.mk (fun _ => 181) 13) ∧
      ((BitVector.mk (fun _ => 181) 13).length ≤ 5 →
        ∀ i, i < (BitVector.mk (fun _ => 181) 13).length → vect_get_bit r i = 0) :=
  ⟨⟨by decide, by decide⟩,
    right_shift_spec (BitVector.mk (fun _ => 181) 13) 5 (by decide) (by decide)⟩

/-! ## Left shift -/

theorem left_shift_inner_exit (s fuel : Nat) (v : BitVector) (j : Int) (prev : Nat)
    (hf : 1 ≤ fuel) (hj : j < 0) :
    left_shift_inner s fuel v j prev = some v := by
  obtain ⟨f, rfl⟩ : ∃ f, fuel = f + 1 := ⟨fuel - 1, by omega⟩
  simp only [left_shift_inner, if_neg (not_le.mpr hj)]

theorem toInt_sub_nat (j s : Nat) (hj : j < 2147483648) (hs : s < 2147483648) :
    toInt ((j : Int) - (s : Int)) = (j : Int) - (s : Int) := by
  unfold toInt; omega

theorem left_shift_inner_spec (s : Nat) (hs1 : 1 ≤ s) (hs : s < 2147483648) :
    ∀ (fuel : Nat) (v : BitVector) (j prev : Nat),
      j < v.length → v.length ≤ 2147483648 → j + 2 ≤ fuel →
      ∃ r, left_shift_inner s fuel v (j : Int) prev = some r ∧ r.length = v.length ∧
        ∀ p, pbit r.data p =
          if p ≤ j ∧ s ∣ (j - p) then
            (if p = j then decide (prev ≠ 0) else pbit v.data (p + s))
          else pbit v.data p := by
  intro fuel
  induction fuel with
  | zero => intro v j prev _ _ h; omega
  | succ f ih =>
    intro v j prev hjn hn hfuel
    have hc : (j : Int) ≥ 0 := by omega
    simp only [left_shift_inner, if_pos hc, toUInt_natCast j (by omega)]
    have hlen1 : (vect_set_bit v j prev).length = v.length := vect_set_bit_length v j prev
    rw [toInt_sub_nat j s (by omega) hs]
    by_cases hjs : s ≤ j
    · have hcast : (j : Int) - (s : Int) = ((j - s : Nat) : Int) := by omega
      rw [hcast]
      obtain ⟨r, hr, hrl, hrp⟩ := ih (vect_set_bit v j prev) (j - s) (vect_get_bit v j)
        (by rw [hlen1]; omega) (by rw [hlen1]; exact hn) (by omega)
      refine ⟨r, hr, by rw [hrl, hlen1], ?_⟩
      intro p
      rw [hrp p]
      by_cases hpj : p = j
      · subst hpj
        have h1 : ¬ (p ≤ p - s ∧ s ∣ (p - s - p)) := by omega
        have h2 : p ≤ p ∧ s ∣ (p - p) := ⟨le_refl _, by simp⟩
        rw [if_neg h1, if_pos h2, if_pos rfl, pbit_vect_set_bit _ _ _ _ hjn, if_pos rfl]
      · have key : (p ≤ j ∧ s ∣ (j - p)) ↔ (p ≤ j - s ∧ s ∣ (j - s - p)) := by
          have h := dvd_sub_step s j p (fun h => hpj h.symm)
          have e : j - (p + s) = j - s - p := by omega
          rw [e] at h
          constructor
          · intro h0
            have := h.1 h0
            exact ⟨by omega, this.2⟩
          · intro h0
            exact h.2 ⟨by omega, h0.2⟩
        by_cases hcond : p ≤ j - s ∧ s ∣ (j - s - p)
        · rw [if_pos hcond, if_pos (key.2 hcond), if_neg hpj]
          by_cases hp2 : p = j - s
          · subst hp2
            rw [if_pos rfl, vect_get_bit_eq v j hjn]
            have : j - s + s = j := by omega
            rw [this]
            cases pbit v.data j <;> simp
          · rw [if_neg hp2, pbit_vect_set_bit _ _ _ _ hjn, if_neg (by omega)]
        · rw [if_neg hcond, if_neg (fun h => hcond (key.1 h)),
            pbit_vect_set_bit _ _ _ _ hjn, if_neg hpj]
    · rw [left_shift_inner_exit s f _ _ _ (by omega) (by omega)]
      refine ⟨_, rfl, hlen1, ?_⟩
      intro p
      rw [pbit_vect_set_bit _ _ _ _ hjn]
      by_cases hpj : p = j
      · subst hpj
        have h2 : p ≤ p ∧ s ∣ (p - p) := ⟨le_refl _, by simp⟩
        rw [if_pos rfl, if_pos h2, if_pos rfl]
      · have h1 : ¬ (p ≤ j ∧ s ∣ (j - p)) := by
          intro h
          have := (dvd_sub_step s j p (fun h => hpj h.symm)).1 h
          omega
        rw [if_neg hpj, if_neg h1]

theorem left_class_iff (s n k p : Nat) (hk : k < s) (hkn : k < n) :
    (p ≤ n - 1 - k ∧ s ∣ (n - 1 - k - p)) ↔ (p < n ∧ (n - 1 - p) % s = k) := by
  have hq := mod_eq_iff_dvd_sub s (n - 1 - p) k hk
  constructor
  · rintro ⟨a, b⟩
    have e : n - 1 - k - p = n - 1 - p - k := by omega
    rw [e] at b
    exact ⟨by omega, hq.1 ⟨by omega, b⟩⟩
  · rintro ⟨a, b⟩
    have h := hq.2 b
    have e : n - 1 - k - p = n - 1 - p - k := by omega
    rw [e]
    exact ⟨by omega, h.2⟩

theorem left_shift_outer_spec (s : Nat) :
    ∀ (fuel : Nat) (v : BitVector) (k : Nat),
      s < v.length → v.length ≤ 2147483648 → k ≤ s → s + 1 ≤ fuel + k →
      ∃ r, left_shift_outer s fuel v ((v.length - 1 - k : Nat) : Int) = some r ∧
        r.length = v.length ∧
        ∀ p, pbit r.data p =
          if p < v.length ∧ k ≤ (v.length - 1 - p) % s then
            (if v.length ≤ p + s then false else pbit v.data (p + s))
          else pbit v.data p := by
  intro fuel
  induction fuel with
  | zero => intro v k _ _ _ h; omega
  | succ f ih =>
    intro v k hsn hn hks hfuel
    have hB : toSizeT ((v.length : Int) - (s : Int) - 1) = v.length - s - 1 := by
      unfold toSizeT; omega
    have hI : toSizeT ((v.length - 1 - k : Nat) : Int) = v.length - 1 - k := by
      unfold toSizeT; omega
    by_cases hlt : k < s
    · have hc : toSizeT ((v.length - 1 - k : Nat) : Int)
          > toSizeT ((v.length : Int) - (s : Int) - 1) := by
        rw [hB, hI]; omega
      obtain ⟨v1, hv1, hl1, hp1⟩ := left_shift_inner_spec s (by omega) (by omega)
        2147483649 v (v.length - 1 - k) 0 (by omega) hn (by omega)
      have hcast : toInt (((v.length - 1 - k : Nat) : Int) - 1)
          = ((v1.length - 1 - (k + 1) : Nat) : Int) := by
        rw [hl1]; unfold toInt; omega
      obtain ⟨r, hr, hrl, hrp⟩ := ih v1 (k + 1) (by rw [hl1]; exact hsn)
        (by rw [hl1]; exact hn) (by omega) (by omega)
      refine ⟨r, ?_, by rw [hrl, hl1], ?_⟩
      · simp only [left_shift_outer, if_pos hc, hv1, hcast, hr]
      · intro p
        rw [hrp p, hl1]
        have hiff := fun q => left_class_iff s v.length k q hlt (by omega)
        simp only [hp1, hiff]
        by_cases hpn : p < v.length
        · by_cases hgt : k + 1 ≤ (v.length - 1 - p) % s
          · have h1 : k ≤ (v.length - 1 - p) % s := by omega
            by_cases hps : v.length ≤ p + s
            · simp [hpn, hgt, h1, hps]
            · have e : v.length - 1 - (p + s) = v.length - 1 - p - s := by omega
              have hm := sub_mod_self s (v.length - 1 - p) (by omega)
              have h2 : ¬ (v.length - 1 - (p + s)) % s = k := by rw [e]; omega
              simp [hpn, hgt, h1, hps, h2]
          · by_cases heq : (v.length - 1 - p) % s = k
            · have h1 : k ≤ (v.length - 1 - p) % s := by omega
              by_cases hps : v.length ≤ p + s
              · have h3 : p = v.length - 1 - k := by
                  have : (v.length - 1 - p) % s = v.length - 1 - p :=
                    Nat.mod_eq_of_lt (by omega)
                  omega
                have h3t : (p = v.length - 1 - k) = True := eq_true h3
                simp [hpn, hgt, h1, hps, heq, h3t]
              · have h3 : p ≠ v.length - 1 - k := by omega
                simp [hpn, hgt, h1, hps, heq, h3]
            · have h1 : ¬ k ≤ (v.length - 1 - p) % s := by omega
              simp [hpn, hgt, h1, heq]
        · simp [hpn]
    · have hc : ¬ toSizeT ((v.length - 1 - k : Nat) : Int)
          > toSizeT ((v.length : Int) - (s : Int) - 1) := by
        rw [hB, hI]; omega
      have hks2 : k = s := by omega
      simp only [left_shift_outer, if_neg hc]
      refine ⟨v, rfl, rfl, ?_⟩
      intro p
      by_cases hs0 : s = 0
      · subst hks2; subst hs0
        by_cases hpn : p < v.length
        · have : ¬ v.length ≤ p := by omega
          simp [hpn, this]
        · simp [hpn]
      · have : (v.length - 1 - p) % s < s := Nat.mod_lt _ (by omega)
        rw [if_neg (by omega)]

/-- The physical bits of the buffer after `vect_left_shift`, for a vector of
at most `2^31` bits and a shift below its length. -/
theorem vect_left_shift_pbit (v : BitVector) (s : Nat)
    (hn : v.length ≤ 2147483648) (hs : s < v.length) :
    ∃ r, vect_left_shift v s = some r ∧ r.length = v.length ∧
      ∀ p, pbit r.data p =
        if p < v.length then (if v.length ≤ p + s then false else pbit v.data (p + s))
        else pbit v.data p := by
  obtain ⟨r, hr, hrl, hrp⟩ := left_shift_outer_spec s 4294967297 v 0 hs hn (by omega) (by omega)
  have hi : toInt (toSizeT ((v.length : Int) - 1)) = ((v.length - 1 - 0 : Nat) : Int) := by
    unfold toInt toSizeT; omega
  refine ⟨r, by unfold vect_left_shift; rw [hi]; exact hr, hrl, ?_⟩
  intro p
  rw [hrp p]
  by_cases hpn : p < v.length
  · simp [hpn]
  · simp [hpn]

theorem left_shift_outer_exit (s fuel : Nat) (v : BitVector) (i : Int) (hf : 1 ≤ fuel)
    (hc : ¬ toSizeT i > toSizeT ((v.length : Int) - (s : Int) - 1)) :
    left_shift_outer s fuel v i = some v := by
  obtain ⟨f, rfl⟩ : ∃ f, fuel = f + 1 := ⟨fuel - 1, by omega⟩
  simp only [left_shift_outer, if_neg hc]

/-- With a shift that is at least the length, the loop bound of
`vect_left_shift` wraps around in `size_t` and the loop body never runs: the
vector is returned as it was. -/
theorem vect_left_shift_ge_length (v : BitVector) (s : Nat)
    (hn1 : 1 ≤ v.length) (hn : v.length ≤ 2147483648) (hs : v.length ≤ s)
    (hs2 : s < 4294967296) :
    vect_left_shift v s = some v := by
  unfold vect_left_shift
  apply left_shift_outer_exit _ _ _ _ (by norm_num)
  unfold toSizeT toInt
  omega

/-- C3, as stated, fails: on a vector of `2^32 + 8` bits whose bit `1` is `1`
and whose other bits are `0`, `vect_left_shift` by `1` does not bring the
original bit `1` to index `0`. -/
theorem left_shift_counterexample :
    ¬ ∃ r, vect_left_shift (BitVector.mk (fun k => if k = 0 then 2 else 0) 4294967304) 1
        = some r ∧
      ∀ i, i + 1 < 4294967304 →
        vect_get_bit r i
          = vect_get_bit (BitVector.mk (fun k => if k = 0 then 2 else 0) 4294967304) (i + 1) := by
  rintro ⟨r, hr, hbits⟩
  have hex : vect_left_shift (BitVector.mk (fun k => if k = 0 then 2 else 0) 4294967304) 1
      = some (BitVector.mk (fun k => if k = 0 then 2 else 0) 4294967304) := by
    unfold vect_left_shift
    apply left_shift_outer_exit _ _ _ _ (by norm_num)
    simp only [toSizeT, toInt]
    decide
  rw [hex] at hr
  have hr2 := Option.some.inj hr
  subst hr2
  have h1 := hbits 0 (by norm_num)
  revert h1
  decide

/-- C3 (amended). For a vector of length `n ≤ 2^31` and a shift `s < n`,
`vect_left_shift(v, s)` returns, keeps the length, leaves at every index `i`
with `i + s < n` the original bit `i + s` and at every index `i` with
`n - s ≤ i < n` the bit `0`; `s = 0` leaves `v` unchanged. -/
theorem left_shift_spec (v : BitVector) (s : Nat)
    (hn : v.length ≤ 2147483648) (hs : s < v.length) :
    ∃ r, vect_left_shift v s = some r ∧ r.length = v.length ∧
      (∀ i, i + s < v.length → vect_get_bit r i = vect_get_bit v (i + s)) ∧
      (∀ i, v.length - s ≤ i → i < v.length → vect_get_bit r i = 0) ∧
      (s = 0 → r = v) := by
  obtain ⟨r, hr, hrl, hrp⟩ := vect_left_shift_pbit v s hn hs
  refine ⟨r, hr, hrl, ?_, ?_, ?_⟩
  · intro i hi
    have h1 : i < r.length := by rw [hrl]; omega
    have h2 : i < v.length := by omega
    have h3 : ¬ v.length ≤ i + s := by omega
    rw [vect_get_bit_eq r i h1, hrp i, if_pos h2, if_neg h3, vect_get_bit_eq v (i + s) hi]
  · intro i hi1 hi2
    have h1 : i < r.length := by rw [hrl]; omega
    have h3 : v.length ≤ i + s := by omega
    rw [vect_get_bit_eq r i h1, hrp i, if_pos hi2, if_pos h3]
    simp
  · intro hs0
    subst hs0
    have : vect_left_shift v 0 = some v := by
      unfold vect_left_shift
      apply left_shift_outer_exit _ _ _ _ (by norm_num)
      unfold toSizeT toInt
      omega
    rw [this] at hr
    exact (Option.some.inj hr).symm

theorem left_shift_spec_witness :
    ((BitVector.mk (fun _ => 181) 13).length ≤ 2147483648 ∧
      5 < (BitVector.mk (fun _ => 181) 13).length) ∧
    ∃ r, vect_left_shift (BitVector.mk (fun _ => 181) 13) 5 = some r ∧
      r.length = (BitVector.mk (fun _ => 181) 13).length ∧
      (∀ i, i + 5 < (BitVector.mk (fun _ => 181) 13).length →
        vect_get_bit r i = vect_get_bit (BitVector.mk (fun _ => 181) 13) (i + 5)) ∧
      (∀ i, (BitVector.mk (fun _ => 181) 13).length - 5 ≤ i →
        i < (BitVector.mk (fun _ => 181) 13).length → vect_get_bit r i = 0) ∧
      (5 = 0 → r = BitVector.mk (fun _ => 181) 13) :=
  ⟨⟨by decide, by decide⟩,
    left_shift_spec (BitVector.mk (fun _ => 181) 13) 5 (by decide) (by decide)⟩

/-- C4 (the code departs from it). On the one-bit vector holding `1`,
`vect_left_shift` by `1` (a shift equal to the length) returns the vector
unchanged: bit `0` still reads `1` instead of `0`. -/
theorem left_shift_full_length_keeps_bit :
    ∃ r, vect_left_shift (BitVector.mk (fun _ => 1) 1) 1 = some r ∧
      r.length = 1 ∧ vect_get_bit r 0 = 1 := by
  refine ⟨BitVector.mk (fun _ => 1) 1, ?_, rfl, by decide⟩
  exact vect_left_shift_ge_length (BitVector.mk (fun _ => 1) 1) 1 (by decide) (by decide)
    (by decide) (by decide)

/-! ## Copy -/

theorem copy_loop_spec (src : BitVector) (o : Nat) (hsrc : src.length < 2147483648) :
    ∀ (fuel : Nat) (dest : BitVector) (i : Nat),
      dest.length < 4294967296 → o + i ≤ dest.length → i ≤ src.length →
      src.length + 1 ≤ fuel + i →
      ∃ r, copy_loop src o fuel dest (i : Int) = some r ∧ r.length = dest.length ∧
        ∀ p, pbit r.data p =
          if o + i ≤ p ∧ p < o + src.length ∧ p < dest.length then pbit src.data (p - o)
          else pbit dest.data p := by
  intro fuel
  induction fuel with
  | zero => intro dest i _ _ h1 h2; omega
  | succ f ih =>
    intro dest i hd hoi his hfuel
    have hI : toSizeT (i : Int) = i := toSizeT_natCast i (by omega)
    by_cases hlt : i < src.length
    · have hc : toSizeT (i : Int) < src.length := by rw [hI]; exact hlt
      have hU : toUInt ((o : Int) + (i : Int)) = o + i := by
        unfold toUInt; omega
      by_cases hbrk : o + i ≥ dest.length
      · simp only [copy_loop, if_pos hc, hU, if_pos hbrk]
        refine ⟨dest, rfl, rfl, ?_⟩
        intro p
        rw [if_neg (by omega)]
      · simp only [copy_loop, if_pos hc, hU, if_neg hbrk, toUInt_natCast i (by omega)]
        have hcast : toInt ((i : Int) + 1) = ((i + 1 : Nat) : Int) := by
          unfold toInt; omega
        rw [hcast]
        have hlen1 : (vect_set_bit dest (o + i) (vect_get_bit src i)).length = dest.length :=
          vect_set_bit_length _ _ _
        obtain ⟨r, hr, hrl, hrp⟩ := ih (vect_set_bit dest (o + i) (vect_get_bit src i)) (i + 1)
          (by rw [hlen1]; exact hd) (by rw [hlen1]; omega) (by omega) (by omega)
        refine ⟨r, hr, by rw [hrl, hlen1], ?_⟩
        intro p
        rw [hrp p, hlen1]
        have hoid : o + i < dest.length := by omega
        by_cases hp : p = o + i
        · subst hp
          have h1 : ¬ (o + (i + 1) ≤ o + i ∧ o + i < o + src.length ∧ o + i < dest.length) := by
            omega
          have h2 : o + i ≤ o + i ∧ o + i < o + src.length ∧ o + i < dest.length :=
            ⟨le_refl _, by omega, hoid⟩
          rw [if_neg h1, if_pos h2, pbit_vect_set_bit _ _ _ _ hoid, if_pos rfl,
            vect_get_bit_eq src i hlt]
          have : o + i - o = i := by omega
          rw [this]
          cases pbit src.data i <;> simp
        · rw [pbit_vect_set_bit _ _ _ _ hoid, if_neg hp]
          by_cases hcond : o + (i + 1) ≤ p ∧ p < o + src.length ∧ p < dest.length
          · rw [if_pos hcond, if_pos ⟨by omega, hcond.2.1, hcond.2.2⟩]
          · rw [if_neg hcond, if_neg (fun h => hcond ⟨by omega, h.2.1, h.2.2⟩)]
    · have hc : ¬ toSizeT (i : Int) < src.length := by rw [hI]; exact hlt
      simp only [copy_loop, if_neg hc]
      refine ⟨dest, rfl, rfl, ?_⟩
      intro p
      rw [if_neg (by omega)]

/-- The physical bits of `dest` after `vect_copy`, for a source of at most
`INT_MAX` bits and a destination of at most `UINT_MAX` bits. -/
theorem vect_copy_pbit (src dest : BitVector) (o : Nat)
    (hsrc : src.length < 2147483648) (hd : dest.length < 4294967296) :
    ∃ r, vect_copy src dest o = some r ∧ r.length = dest.length ∧
      (dest.length ≤ o → r = dest) ∧
      ∀ p, pbit r.data p =
        if o ≤ p ∧ p < o + src.length ∧ p < dest.length then pbit src.data (p - o)
        else pbit dest.data p := by
  by_cases ho : o ≥ dest.length
  · refine ⟨dest, by simp only [vect_copy, if_pos ho], rfl, fun _ => rfl, ?_⟩
    intro p
    rw [if_neg (by omega)]
  · obtain ⟨r, hr, hrl, hrp⟩ := copy_loop_spec src o hsrc (src.length + 1) dest 0 hd
      (by omega) (by omega) (by omega)
    refine ⟨r, by simp only [vect_copy, if_neg ho]; exact hr, hrl, fun h => absurd h ho, ?_⟩
    intro p
    rw [hrp p]
    rfl

/-- C5, as stated, fails: copying a two-bit source into a destination of
`2^32 + 8` bits at offset `2^32 - 1` wraps the `unsigned int` index
`offset + i` around and overwrites bit `0` of the destination, an index below
the offset. -/
theorem copy_counterexample :
    ¬ ∃ r, vect_copy (BitVector.mk (fun _ => 3) 2) (BitVector.mk (fun _ => 0) 4294967304)
        4294967295 = some r ∧
      ∀ j, j < 4294967295 →
        vect_get_bit r j = vect_get_bit (BitVector.mk (fun _ => 0) 4294967304) j := by
  rintro ⟨r, hr, hbits⟩
  have hex : vect_copy (BitVector.mk (fun _ => 3) 2) (BitVector.mk (fun _ => 0) 4294967304)
      4294967295
      = some (vect_set_bit (vect_set_bit (BitVector.mk (fun _ => 0) 4294967304) 4294967295 1)
          0 1) := by
    rfl
  rw [hex] at hr
  have hr2 := Option.some.inj hr
  subst hr2
  have h1 := hbits 0 (by norm_num)
  revert h1
  decide

/-- C5 (amended). For a source of at most `INT_MAX` bits and a destination of
at most `UINT_MAX` bits with separate storage, `vect_copy(src, dest, o)`
returns and keeps `dest.length`; when `o ≥ dest.length` it leaves `dest`
unchanged; otherwise, with `k = min(src.length, dest.length - o)`, bit `o + i`
of `dest` is bit `i` of `src` for every `i < k` and every other bit of `dest`
is unchanged. -/
theorem copy_spec (src dest : BitVector) (o : Nat)
    (hsrc : src.length < 2147483648) (hd : dest.length < 4294967296) :
    ∃ r, vect_copy src dest o = some r ∧ r.length = dest.length ∧
      (dest.length ≤ o → r = dest) ∧
      (o < dest.length →
        (∀ i, i < min src.length (dest.length - o) →
          vect_get_bit r (o + i) = vect_get_bit src i) ∧
        (∀ j, j < dest.length → (j < o ∨ o + min src.length (dest.length - o) ≤ j) →
          vect_get_bit r j = vect_get_bit dest j)) := by
  obtain ⟨r, hr, hrl, hnoop, hrp⟩ := vect_copy_pbit src dest o hsrc hd
  refine ⟨r, hr, hrl, hnoop, ?_⟩
  intro ho
  refine ⟨?_, ?_⟩
  · intro i hi
    have hi1 : i < src.length := lt_of_lt_of_le hi (min_le_left _ _)
    have hi2 : i < dest.length - o := lt_of_lt_of_le hi (min_le_right _ _)
    have h1 : o + i < r.length := by rw [hrl]; omega
    have h2 : o ≤ o + i ∧ o + i < o + src.length ∧ o + i < dest.length :=
      ⟨by omega, by omega, by omega⟩
    have h3 : o + i - o = i := by omega
    rw [vect_get_bit_eq r (o + i) h1, hrp (o + i), if_pos h2, h3, vect_get_bit_eq src i hi1]
  · intro j hj hout
    have h1 : j < r.length := by rw [hrl]; exact hj
    have h2 : ¬ (o ≤ j ∧ j < o + src.length ∧ j < dest.length) := by
      rintro ⟨a, b, c⟩
      rcases hout with h | h
      · omega
      · rcases Nat.le_total src.length (dest.length - o) with hm | hm
        · rw [min_eq_left hm] at h; omega
        · rw [min_eq_right hm] at h; omega
    rw [vect_get_bit_eq r j h1, hrp j, if_neg h2, vect_get_bit_eq dest j hj]

theorem copy_spec_witness :
    ((BitVector.mk (fun _ => 181) 13).length < 2147483648 ∧
      (BitVector.mk (fun _ => 0) 10).length < 4294967296) ∧
    ∃ r, vect_copy (BitVector.mk (fun _ => 181) 13) (BitVector.mk (fun _ => 0) 10) 4 = some r ∧
      r.length = (BitVector.mk (fun _ => 0) 10).length ∧
      ((BitVector.mk (fun _ => 0) 10).length ≤ 4 → r = BitVector.mk (fun _ => 0) 10) ∧
      (4 < (BitVector.mk (fun _ => 0) 10).length →
        (∀ i, i < min (BitVector.mk (fun _ => 181) 13).length
            ((BitVector.mk (fun _ => 0) 10).length - 4) →
          vect_get_bit r (4 + i) = vect_get_bit (BitVector.mk (fun _ => 181) 13) i) ∧
        (∀ j, j < (BitVector.mk (fun _ => 0) 10).length →
          (j < 4 ∨ 4 + min (BitVector.mk (fun _ => 181) 13).length
            ((BitVector.mk (fun _ => 0) 10).length - 4) ≤ j) →
          vect_get_bit r j = vect_get_bit (BitVector.mk (fun _ => 0) 10) j)) :=
  ⟨⟨by decide, by decide⟩,
    copy_spec (BitVector.mk (fun _ => 181) 13) (BitVector.mk (fun _ => 0) 10) 4
      (by decide) (by decide)⟩

/-! ## Concatenation -/

theorem toUInt_lt (x : Int) : toUInt x < 4294967296 := by
  unfold toUInt; omega

/-- Frame of the loop of `vect_copy`: the index written is an `unsigned int`,
so no bit at a position from `2^32` on is written. -/
theorem copy_loop_frame (src : BitVector) (o : Nat) :
    ∀ (fuel : Nat) (dest : BitVector) (i : Int) (r : BitVector),
      copy_loop src o fuel dest i = some r →
      r.length = dest.length ∧ ∀ p, 4294967296 ≤ p → pbit r.data p = pbit dest.data p := by
  intro fuel
  induction fuel with
  | zero => intro dest i r h; simp [copy_loop] at h
  | succ f ih =>
    intro dest i r h
    by_cases hc : toSizeT i < src.length
    · by_cases hb : toUInt ((o : Int) + i) ≥ dest.length
      · simp only [copy_loop, if_pos hc, if_pos hb, Option.some.injEq] at h
        subst h
        exact ⟨rfl, fun _ _ => rfl⟩
      · simp only [copy_loop, if_pos hc, if_neg hb] at h
        obtain ⟨h1, h2⟩ := ih _ _ _ h
        refine ⟨by rw [h1, vect_set_bit_length], ?_⟩
        intro p hp
        have := toUInt_lt ((o : Int) + i)
        rw [h2 p hp, pbit_vect_set_bit_ne _ _ _ _ (by omega)]
    · simp only [copy_loop, if_neg hc, Option.some.injEq] at h
      subst h
      exact ⟨rfl, fun _ _ => rfl⟩

theorem vect_copy_frame (src dest : BitVector) (o : Nat) (r : BitVector)
    (h : vect_copy src dest o = some r) :
    r.length = dest.length ∧ ∀ p, 4294967296 ≤ p → pbit r.data p = pbit dest.data p := by
  by_cases ho : o ≥ dest.length
  · simp only [vect_copy, if_pos ho, Option.some.injEq] at h
    subst h
    exact ⟨rfl, fun _ _ => rfl⟩
  · simp only [vect_copy, if_neg ho] at h
    exact copy_loop_frame src o _ _ _ _ h
/-- Frame of `vect_cat`: the bits of the result at positions from `2^32` on
are those of the freshly allocated buffer. -/
theorem vect_cat_frame (init : Nat → Nat) (a b c : BitVector)
    (h : vect_cat init a b = some c) :
    c.length = (a.length + b.length) % 18446744073709551616 ∧
    ∀ p, 4294967296 ≤ p → pbit c.data p = pbit init p := by
  unfold vect_cat at h
  simp only at h
  cases h1 : vect_copy a
      (BitVector.mk init ((a.length + b.length) % 18446744073709551616)) 0 with
  | none => rw [h1] at h; simp at h
  | some c1 =>
    rw [h1] at h
    simp only at h
    obtain ⟨a1, a2⟩ := vect_copy_frame _ _ _ _ h1
    obtain ⟨b1, b2⟩ := vect_copy_frame _ _ _ _ h
    refine ⟨by rw [b1, a1], ?_⟩
    intro p hp
    rw [b2 p hp, a2 p hp]

/-- C6, as stated, fails: with a first operand of `2^32 + 8` zero bits, a
second operand holding the single bit `1` and a zeroed fresh buffer, the bit
of the concatenation at index `a.length` is not the bit `0` of `b`. -/
theorem cat_counterexample :
    ¬ ∃ c, vect_cat (fun _ => 0) (BitVector.mk (fun _ => 0) 4294967304)
        (BitVector.mk (fun _ => 1) 1) = some c ∧
      c.length = 4294967304 + 1 ∧
      vect_get_bit c (4294967304 + 0) = vect_get_bit (BitVector.mk (fun _ => 1) 1) 0 := by
  rintro ⟨c, hc, hlen, hbit⟩
  obtain ⟨_, hf⟩ := vect_cat_frame _ _ _ _ hc
  rw [vect_get_bit_eq c _ (by rw [hlen]; norm_num), hf _ (by norm_num)] at hbit
  revert hbit
  decide

/-- C6 (amended). For operands of at most `INT_MAX` bits each with
`a.length + b.length ≥ 1`, and whatever the content of the freshly allocated
buffer, `vect_cat(a, b)` returns a vector `c` of length
`a.length + b.length` whose bit `i` is bit `i` of `a` for `i < a.length` and
whose bit `a.length + i` is bit `i` of `b` for `i < b.length`. -/
theorem cat_spec (init : Nat → Nat) (a b : BitVector)
    (ha : a.length < 2147483648) (hb : b.length < 2147483648)
    (_hpos : 1 ≤ a.length + b.length) :
    ∃ c, vect_cat init a b = some c ∧ c.length = a.length + b.length ∧
      (∀ i, i < a.length → vect_get_bit c i = vect_get_bit a i) ∧
      (∀ i, i < b.length → vect_get_bit c (a.length + i) = vect_get_bit b i) := by
  have hmod : (a.length + b.length) % 18446744073709551616 = a.length + b.length :=
    Nat.mod_eq_of_lt (by omega)
  obtain ⟨c1, hc1, hl1, _, hp1⟩ := vect_copy_pbit a
    (BitVector.mk init (a.length + b.length)) 0 ha (by simp only; omega)
  obtain ⟨c, hc, hl, _, hp⟩ := vect_copy_pbit b c1 a.length hb (by rw [hl1]; simp only; omega)
  have hU : toUInt (a.length : Int) = a.length := toUInt_natCast _ (by omega)
  simp only at hl1
  refine ⟨c, ?_, by rw [hl, hl1], ?_, ?_⟩
  · unfold vect_cat
    simp only [hmod, hc1, hU, hc]
  · intro i hi
    have h1 : i < c.length := by rw [hl, hl1]; omega
    have h2 : ¬ (a.length ≤ i ∧ i < a.length + b.length ∧ i < c1.length) := by omega
    have h3 : 0 ≤ i ∧ i < 0 + a.length ∧ i < (BitVector.mk init (a.length + b.length)).length :=
      ⟨by omega, by omega, by simp only; omega⟩
    rw [vect_get_bit_eq c i h1, hp i, if_neg h2, hp1 i, if_pos h3, vect_get_bit_eq a i hi]
    rfl
  · intro i hi
    have h1 : a.length + i < c.length := by rw [hl, hl1]; omega
    have h2 : a.length ≤ a.length + i ∧ a.length + i < a.length + b.length ∧
        a.length + i < c1.length := ⟨by omega, by omega, by rw [hl1]; omega⟩
    have h3 : a.length + i - a.length = i := by omega
    rw [vect_get_bit_eq c _ h1, hp _, if_pos h2, h3, vect_get_bit_eq b i hi]

theorem cat_spec_witness :
    ((BitVector.mk (fun _ => 181) 13).length < 2147483648 ∧
      (BitVector.mk (fun _ => 90) 6).length < 2147483648 ∧
      1 ≤ (BitVector.mk (fun _ => 181) 13).length + (BitVector.mk (fun _ => 90) 6).length) ∧
    ∃ c, vect_cat (fun _ => 255) (BitVector.mk (fun _ => 181) 13) (BitVector.mk (fun _ => 90) 6)
        = some c ∧
      c.length = (BitVector.mk (fun _ => 181) 13).length + (BitVector.mk (fun _ => 90) 6).length ∧
      (∀ i, i < (BitVector.mk (fun _ => 181) 13).length →
        vect_get_bit c i = vect_get_bit (BitVector.mk (fun _ => 181) 13) i) ∧
      (∀ i, i < (BitVector.mk (fun _ => 90) 6).length →
        vect_get_bit c ((BitVector.mk (fun _ => 181) 13).length + i)
          = vect_get_bit (BitVector.mk (fun _ => 90) 6) i) :=
  ⟨⟨by decide, by decide, by decide⟩,
    cat_spec (fun _ => 255) (BitVector.mk (fun _ => 181) 13) (BitVector.mk (fun _ => 90) 6)
      (by decide) (by decide) (by decide)⟩

/-! ## Reversal -/

theorem tdiv_two_toNat (x : Int) :
    (Int.tdiv x 2).toNat = x.toNat / 2 := by
  by_cases hx : 0 ≤ x
  · rw [Int.tdiv_eq_ediv hx (by norm_num)]
    omega
  · have h1 : Int.tdiv x 2 ≤ 0 := by
      have h2 : 0 ≤ Int.tdiv (-x) 2 := Int.tdiv_nonneg (by omega) (by norm_num)
      rw [Int.neg_tdiv] at h2
      omega
    omega

theorem reverse_loop_spec (m : Nat) (hm2 : m < 2147483648) :
    ∀ (count : Nat) (v : BitVector) (i : Nat),
      m ≤ v.length →
      (∀ k, k < m → toInt ((v.length : Int) - (k : Int) - 1) = ((m - 1 - k : Nat) : Int)) →
      2 * (i + count) ≤ m →
      (reverse_loop count v i).length = v.length ∧
      ∀ p, pbit (reverse_loop count v i).data p =
        if p < m ∧ (i ≤ p ∧ p < i + count ∨ i ≤ m - 1 - p ∧ m - 1 - p < i + count) then
          pbit v.data (m - 1 - p)
        else pbit v.data p := by
  intro count
  induction count with
  | zero =>
    intro v i _ _ _
    refine ⟨rfl, ?_⟩
    intro p
    rw [if_neg (by omega)]
    rfl
  | succ c ih =>
    intro v i hm H hcount
    have hopp := H i (by omega)
    have hU : toUInt ((m - 1 - i : Nat) : Int) = m - 1 - i := toUInt_natCast _ (by omega)
    have hi : i < v.length := by omega
    have ho : m - 1 - i < v.length := by omega
    have hl1 : (vect_set_bit v i (vect_get_bit v (m - 1 - i))).length = v.length :=
      vect_set_bit_length _ _ _
    have hl2 : (vect_set_bit (vect_set_bit v i (vect_get_bit v (m - 1 - i))) (m - 1 - i)
        (vect_get_bit v i)).length = v.length := by rw [vect_set_bit_length, hl1]
    simp only [reverse_loop, hopp, hU]
    obtain ⟨a1, a2⟩ := ih (vect_set_bit (vect_set_bit v i (vect_get_bit v (m - 1 - i)))
        (m - 1 - i) (vect_get_bit v i)) (i + 1) (by rw [hl2]; exact hm)
        (by rw [hl2]; exact H) (by omega)
    refine ⟨by rw [a1, hl2], ?_⟩
    have e1 : ∀ q, q < v.length → decide (vect_get_bit v q ≠ 0) = pbit v.data q := by
      intro q hq
      rw [vect_get_bit_eq v q hq]
      cases pbit v.data q <;> simp
    have hv2 : ∀ q, pbit (vect_set_bit (vect_set_bit v i (vect_get_bit v (m - 1 - i)))
        (m - 1 - i) (vect_get_bit v i)).data q
        = if q = m - 1 - i then pbit v.data i
          else if q = i then pbit v.data (m - 1 - i) else pbit v.data q := by
      intro q
      rw [pbit_vect_set_bit _ _ _ _ (by rw [hl1]; exact ho), pbit_vect_set_bit _ _ _ _ hi,
        e1 _ ho, e1 _ hi]
    intro p
    rw [a2 p]
    simp only [hv2]
    split_ifs <;> first | rfl | (congr 1; omega)

/-- The physical bits of the buffer after `vect_reverse`, for every vector:
the first `m` bits are mirrored, `m` being `(int)vect->length` when that is
positive and `0` otherwise; no other bit changes. -/
theorem vect_reverse_pbit (v : BitVector) :
    (vect_reverse v).length = v.length ∧
    ∀ p, pbit (vect_reverse v).data p =
      if p < (toInt v.length).toNat then pbit v.data ((toInt v.length).toNat - 1 - p)
      else pbit v.data p := by
  have hr := toInt_range (v.length : Int)
  have hm2 : (toInt v.length).toNat < 2147483648 := by omega
  have hmn : (toInt v.length).toNat ≤ v.length := by
    unfold toInt; omega
  have H : ∀ k, k < (toInt v.length).toNat →
      toInt ((v.length : Int) - (k : Int) - 1)
        = (((toInt v.length).toNat - 1 - k : Nat) : Int) := by
    intro k hk
    unfold toInt at hk ⊢
    omega
  obtain ⟨a1, a2⟩ := reverse_loop_spec (toInt v.length).toNat hm2
    ((toInt v.length).toNat / 2) v 0 hmn H (by omega)
  unfold vect_reverse
  rw [tdiv_two_toNat]
  refine ⟨a1, ?_⟩
  intro p
  rw [a2 p]
  split_ifs <;> first | rfl | (congr 1; omega)

theorem reverse_loop_bytesOK :
    ∀ (count : Nat) (v : BitVector) (i : Nat), BytesOK v.data →
      BytesOK (reverse_loop count v i).data := by
  intro count
  induction count with
  | zero => intro v i h; exact h
  | succ c ih =>
    intro v i h
    simp only [reverse_loop]
    exact ih _ _ (vect_set_bit_bytesOK _ _ _ (vect_set_bit_bytesOK _ _ _ h))

theorem vect_reverse_bytesOK (v : BitVector) (h : BytesOK v.data) :
    BytesOK (vect_reverse v).data :=
  reverse_loop_bytesOK _ v 0 h

theorem reverse_loop_writes_mem (m : Nat) (hm2 : m < 2147483648) :
    ∀ (count : Nat) (v : BitVector) (i : Nat),
      m ≤ v.length →
      (∀ k, k < m → toInt ((v.length : Int) - (k : Int) - 1) = ((m - 1 - k : Nat) : Int)) →
      2 * (i + count) ≤ m →
      ∀ q, q ∈ reverse_loop_writes count v i →
        (i ≤ q ∧ q < i + count) ∨ (m - (i + count) ≤ q ∧ q < m - i) := by
  intro count
  induction count with
  | zero => intro v i _ _ _ q hq; simp [reverse_loop_writes] at hq
  | succ c ih =>
    intro v i hm H hcount q hq
    have hopp := H i (by omega)
    have hU : toUInt ((m - 1 - i : Nat) : Int) = m - 1 - i := toUInt_natCast _ (by omega)
    simp only [reverse_loop_writes, hopp, hU, List.mem_cons] at hq
    rcases hq with h | h | h
    · omega
    · omega
    · have hl2 : (vect_set_bit (vect_set_bit v i (vect_get_bit v (m - 1 - i))) (m - 1 - i)
          (vect_get_bit v i)).length = v.length := by
        rw [vect_set_bit_length, vect_set_bit_length]
      have := ih _ (i + 1) (by rw [hl2]; exact hm) (by rw [hl2]; exact H) (by omega) q h
      omega

theorem BitVector.eq_of_fields (v w : BitVector) (hd : v.data = w.data)
    (hl : v.length = w.length) : v = w := by
  cases v; cases w
  simp only at hd hl
  subst hd; subst hl
  rfl

/-- C7, as stated, fails: on a vector of `2^31` bits `(int)vect->length` is
negative, the loop of `vect_reverse` does not run, and bit `0` keeps its
value instead of taking that of bit `2^31 - 1`. -/
theorem reverse_counterexample :
    ¬ ∀ i, i < 2147483648 →
      vect_get_bit (vect_reverse (BitVector.mk (fun k => if k = 0 then 1 else 0) 2147483648)) i
        = vect_get_bit (BitVector.mk (fun k => if k = 0 then 1 else 0) 2147483648)
            (2147483648 - 1 - i) := by
  intro h
  have h0 := h 0 (by norm_num)
  obtain ⟨hl, hp⟩ := vect_reverse_pbit (BitVector.mk (fun k => if k = 0 then 1 else 0) 2147483648)
  rw [vect_get_bit_eq _ 0 (by rw [hl]; norm_num), hp 0] at h0
  revert h0
  decide

/-- C7 (amended). For a vector of length `n ≤ INT_MAX`, after `vect_reverse`
the length is unchanged and the bit at every index `i < n` is the original
bit at index `n - 1 - i`; when `n` is odd the middle index `(n - 1) / 2` is
not among the indices the loop writes. -/
theorem reverse_spec (v : BitVector) (hn : v.length < 2147483648) :
    (vect_reverse v).length = v.length ∧
    (∀ i, i < v.length →
      vect_get_bit (vect_reverse v) i = vect_get_bit v (v.length - 1 - i)) ∧
    (v.length % 2 = 1 → (v.length - 1) / 2 ∉ vect_reverse_writes v) := by
  obtain ⟨hl, hp⟩ := vect_reverse_pbit v
  have hm : (toInt v.length).toNat = v.length := by
    rw [toInt_natCast v.length hn]; rfl
  rw [hm] at hp
  refine ⟨hl, ?_, ?_⟩
  · intro i hi
    have h1 : i < (vect_reverse v).length := by rw [hl]; exact hi
    have h2 : v.length - 1 - i < v.length := by omega
    rw [vect_get_bit_eq _ i h1, hp i, if_pos hi, vect_get_bit_eq v _ h2]
  · intro hodd hmem
    have H : ∀ k, k < v.length →
        toInt ((v.length : Int) - (k : Int) - 1) = ((v.length - 1 - k : Nat) : Int) := by
      intro k hk
      unfold toInt
      omega
    unfold vect_reverse_writes at hmem
    rw [tdiv_two_toNat, hm] at hmem
    have := reverse_loop_writes_mem v.length hn (v.length / 2) v 0 (le_refl _) H (by omega)
      _ hmem
    omega

theorem reverse_spec_witness :
    (BitVector.mk (fun _ => 181) 13).length < 2147483648 ∧
    ((vect_reverse (BitVector.mk (fun _ => 181) 13)).length
        = (BitVector.mk (fun _ => 181) 13).length ∧
      (∀ i, i < (BitVector.mk (fun _ => 181) 13).length →
        vect_get_bit (vect_reverse (BitVector.mk (fun _ => 181) 13)) i
          = vect_get_bit (BitVector.mk (fun _ => 181) 13)
              ((BitVector.mk (fun _ => 181) 13).length - 1 - i)) ∧
      ((BitVector.mk (fun _ => 181) 13).length % 2 = 1 →
        ((BitVector.mk (fun _ => 181) 13).length - 1) / 2
          ∉ vect_reverse_writes (BitVector.mk (fun _ => 181) 13))) :=
  ⟨by decide, reverse_spec (BitVector.mk (fun _ => 181) 13) (by decide)⟩

/-- C8. Applying `vect_reverse` twice restores the vector exactly: the length
and every byte of the backing store, whatever the length. -/
theorem reverse_involution (v : BitVector) (hb : BytesOK v.data) :
    vect_reverse (vect_reverse v) = v := by
  obtain ⟨hl1, hp1⟩ := vect_reverse_pbit v
  obtain ⟨hl2, hp2⟩ := vect_reverse_pbit (vect_reverse v)
  apply BitVector.eq_of_fields
  · apply data_ext _ _ (vect_reverse_bytesOK _ (vect_reverse_bytesOK _ hb)) hb
    intro p
    rw [hp2 p, hl1]
    by_cases hpm : p < (toInt v.length).toNat
    · have h2 : (toInt v.length).toNat - 1 - p < (toInt v.length).toNat := by omega
      have h3 : (toInt v.length).toNat - 1 - ((toInt v.length).toNat - 1 - p) = p := by omega
      rw [if_pos hpm, hp1, if_pos h2, h3]
    · rw [if_neg hpm, hp1, if_neg hpm]
  · rw [hl2, hl1]

theorem reverse_involution_witness :
    BytesOK (BitVector.mk (fun _ => 181) 13).data ∧
    vect_reverse (vect_reverse (BitVector.mk (fun _ => 181) 13))
      = BitVector.mk (fun _ => 181) 13 :=
  ⟨fun _ => (by decide : (181 : Nat) < 256),
    reverse_involution (BitVector.mk (fun _ => 181) 13)
      (fun _ => (by decide : (181 : Nat) < 256))⟩

/-! ## The fill loops and their write traces -/

theorem apply_writes_length (ws : List (Nat × Nat)) :
    ∀ v : BitVector, (apply_writes v ws).length = v.length := by
  induction ws with
  | nil => intro v; rfl
  | cons w ws ih =>
    intro v
    simp only [apply_writes]
    rw [ih, vect_set_bit_length]

theorem pbit_vect_set_bit_gen (v : BitVector) (i x p : Nat) :
    pbit (vect_set_bit v i x).data p
      = if i < v.length ∧ p = i then decide (x ≠ 0) else pbit v.data p := by
  by_cases hi : i < v.length
  · rw [pbit_vect_set_bit _ _ _ _ hi]
    by_cases hp : p = i
    · rw [if_pos hp, if_pos ⟨hi, hp⟩]
    · rw [if_neg hp, if_neg (fun h => hp h.2)]
  · rw [vect_set_bit_of_ge _ _ _ (by omega), if_neg (fun h => hi h.1)]

/-- The physical bits of a vector after a list of `vect_set_bit` calls. -/
theorem pbit_apply_writes (ws : List (Nat × Nat)) :
    ∀ (v : BitVector) (p : Nat),
      pbit (apply_writes v ws).data p = final_bit v.length p ws (pbit v.data p) := by
  induction ws with
  | nil => intro v p; rfl
  | cons w ws ih =>
    intro v p
    simp only [apply_writes, final_bit]
    rw [ih, vect_set_bit_length, pbit_vect_set_bit_gen]

/-- The loop over the integer part performs the writes of its trace. -/
theorem int_part_loop_eq (ipl : Int) :
    ∀ (count : Nat) (st : FillState) (i : Nat),
      int_part_loop ipl count st i =
        { int_part := (int_part_writes ipl count st.int_part st.first_bit_discarded i).2.1,
          decimal_part := st.decimal_part,
          first_bit_discarded :=
            (int_part_writes ipl count st.int_part st.first_bit_discarded i).2.2,
          vect := apply_writes st.vect
            (int_part_writes ipl count st.int_part st.first_bit_discarded i).1 } := by
  intro count
  induction count with
  | zero => intro st i; rfl
  | succ c ih =>
    intro st i
    simp only [int_part_loop, int_part_writes]
    split_ifs
    · rw [ih]
    · rw [ih]; rfl
    · rw [ih]; rfl

/-- The loop over the decimal part performs the writes of its trace. -/
theorem decimal_part_loop_eq :
    ∀ (fuel : Nat) (st : FillState) (i : Nat),
      decimal_part_loop fuel st i =
        (decimal_part_writes st.vect.length fuel st.decimal_part st.first_bit_discarded i).map
          (fun r => { int_part := st.int_part, decimal_part := r.2.1,
                      first_bit_discarded := r.2.2, vect := apply_writes st.vect r.1 }) := by
  intro fuel
  induction fuel with
  | zero => intro st i; rfl
  | succ f ih =>
    intro st i
    simp only [decimal_part_loop, decimal_part_writes]
    by_cases hc : i ≤ st.vect.length ∧ st.decimal_part ≠ 0
    · rw [if_pos hc, if_pos hc]
      cases hfb : st.first_bit_discarded with
      | true =>
        simp only [if_true]
        by_cases hd : st.decimal_part * 2 ≥ 1
        · rw [if_pos hd, if_pos hd, ih]
          simp only [vect_set_bit_length]
          cases decimal_part_writes st.vect.length f (st.decimal_part * 2 - 1) true (i + 1) with
          | none => rfl
          | some r => rfl
        · rw [if_neg hd, if_neg hd, ih]
          simp only [vect_set_bit_length]
          cases decimal_part_writes st.vect.length f (st.decimal_part * 2) true (i + 1) with
          | none => rfl
          | some r => rfl
      | false =>
        simp only [Bool.false_eq_true, if_false]
        by_cases hd : st.decimal_part * 2 ≥ 1
        · rw [if_pos hd, if_pos hd, ih]
        · rw [if_neg hd, if_neg hd, ih]
    · rw [if_neg hc, if_neg hc]
      rfl

theorem enc_L_le (f0 : ℚ) : enc_L f0 ≤ 23 ∧
    (enc_L f0 : Int) = MIN (FRACT_PRECISION : Int) (enc_int_length f0) := by
  have h0 : 0 ≤ enc_int_length f0 := by
    unfold enc_int_length
    split_ifs with h
    · exact h
    · exact le_refl _
  unfold enc_L MIN FRACT_PRECISION toSizeT
  split_ifs <;> constructor <;> omega

theorem enc_D_eq (f0 : ℚ) : enc_D f0 = 23 - enc_L f0 := by
  have h := (enc_L_le f0).1
  unfold enc_D FRACT_PRECISION toSizeT
  omega

theorem float_to_binary_unfold (ir ii id : Nat → Nat) (f0 : ℚ) :
    float_to_binary ir ii id f0 =
      (decimal_part_loop 200
          { (int_part_loop (enc_int_length f0) (enc_L f0 + 1)
              { int_part := enc_int_part f0,
                decimal_part := enc_abs f0 - (enc_int_part f0 : ℚ),
                first_bit_discarded := false,
                vect := { data := ii, length := enc_L f0 } } 0) with
            vect := { data := id, length := enc_D f0 } } 0).bind fun st2 =>
      (vect_copy { data := fun _ => enc_sign f0, length := 1 }
            { data := ir, length := FRACT_PRECISION + EXP_PRECISION + 1 } 0).bind fun fv1 =>
      (vect_copy (enc_exp_vect f0) fv1 1).bind fun fv2 =>
      (vect_copy (int_part_loop (enc_int_length f0) (enc_L f0 + 1)
                { int_part := enc_int_part f0,
                  decimal_part := enc_abs f0 - (enc_int_part f0 : ℚ),
                  first_bit_discarded := false,
                  vect := { data := ii, length := enc_L f0 } } 0).vect fv2
                (1 + EXP_PRECISION)).bind fun fv3 =>
      (vect_copy st2.vect fv3
                  (toUInt ((1 + EXP_PRECISION +
                    (int_part_loop (enc_int_length f0) (enc_L f0 + 1)
                    { int_part := enc_int_part f0,
                      decimal_part := enc_abs f0 - (enc_int_part f0 : ℚ),
                      first_bit_discarded := false,
                      vect := { data := ii, length := enc_L f0 } } 0).vect.length : Nat) : Int))
                  ).bind fun fv4 => some (vect_reverse fv4) := by
  simp only [float_to_binary, enc_int_length, enc_L, enc_D, enc_int_part, enc_abs, enc_sign,
    enc_exp_vect, enc_exponent, IS_BIG_ENDIAN, Bool.false_eq_true, if_false]

theorem float_to_binary_none (ir ii id : Nat → Nat) (f0 : ℚ)
    (h : enc_dec_trace f0 = none) : float_to_binary ir ii id f0 = none := by
  have hi : int_part_writes (enc_int_length f0) (enc_L f0 + 1) (enc_int_part f0) false 0
      = enc_int_trace f0 := rfl
  unfold enc_dec_trace at h
  rw [float_to_binary_unfold, int_part_loop_eq, decimal_part_loop_eq]
  simp only [hi, h, Option.map_none', Option.none_bind]

theorem assemble_cases {α : Type} (L D q : Nat) (hL : L ≤ 23) (hD : D = 23 - L)
    (hq : q < 32) (a b c : α) (d : Nat → α) (e : α) :
    (if 9 + L ≤ q ∧ q < 9 + L + D ∧ q < 32 then a
      else if 9 ≤ q ∧ q < 9 + L ∧ q < 32 then b
      else if 1 ≤ q ∧ q < 1 + 8 ∧ q < 32 then c
      else if 0 ≤ q ∧ q < 0 + 1 ∧ q < 23 + 8 + 1 then d q
      else e)
    = if q = 0 then d 0 else if q < 9 then c else if q < 9 + L then b else a := by
  by_cases h0 : q = 0
  · subst h0
    have c1 : ¬ (9 + L ≤ 0 ∧ 0 < 9 + L + D ∧ 0 < 32) := by omega
    have c2 : ¬ (9 ≤ 0 ∧ 0 < 9 + L ∧ 0 < 32) := by omega
    have c3 : ¬ (1 ≤ 0 ∧ 0 < 1 + 8 ∧ 0 < 32) := by omega
    have c4 : 0 ≤ 0 ∧ 0 < 0 + 1 ∧ 0 < 23 + 8 + 1 := by omega
    rw [if_neg c1, if_neg c2, if_neg c3, if_pos c4, if_pos rfl]
  · rw [if_neg h0]
    by_cases h9 : q < 9
    · have c1 : ¬ (9 + L ≤ q ∧ q < 9 + L + D ∧ q < 32) := by omega
      have c2 : ¬ (9 ≤ q ∧ q < 9 + L ∧ q < 32) := by omega
      have c3 : 1 ≤ q ∧ q < 1 + 8 ∧ q < 32 := by omega
      rw [if_neg c1, if_neg c2, if_pos c3, if_pos h9]
    · rw [if_neg h9]
      by_cases hLq : q < 9 + L
      · have c1 : ¬ (9 + L ≤ q ∧ q < 9 + L + D ∧ q < 32) := by omega
        have c2 : 9 ≤ q ∧ q < 9 + L ∧ q < 32 := by omega
        rw [if_neg c1, if_pos c2, if_pos hLq]
      · have c1 : 9 + L ≤ q ∧ q < 9 + L + D ∧ q < 32 := by omega
        rw [if_pos c1, if_neg hLq]

theorem sub_rearrange (p L : Nat) (hp : p < 32) :
    32 - 1 - p = 31 - p ∧ 31 - p < 32 ∧
    31 - p - (9 + L) = 31 - p - 9 - L ∧ 31 - p - 0 = 31 - p := by
  omega

theorem float_to_binary_some (ir ii id : Nat → Nat) (f0 : ℚ)
    (t : List (Nat × Nat) × ℚ × Bool) (h : enc_dec_trace f0 = some t) :
    ∃ r, float_to_binary ir ii id f0 = some r ∧ r.length = 32 ∧
      ∀ p, p < 32 →
        pbit r.data p = enc_big_bit f0 t.1 (31 - p) (pbit ii (31 - p - 9))
          (pbit id (31 - p - 9 - enc_L f0)) := by
  have hi : int_part_writes (enc_int_length f0) (enc_L f0 + 1) (enc_int_part f0) false 0
      = enc_int_trace f0 := rfl
  have hL := (enc_L_le f0).1
  have hD := enc_D_eq f0
  unfold enc_dec_trace at h
  obtain ⟨fv1, e1, l1, _, p1⟩ := vect_copy_pbit
    { data := fun _ => enc_sign f0, length := 1 }
    { data := ir, length := FRACT_PRECISION + EXP_PRECISION + 1 } 0
    (by simp only; norm_num) (by simp only [FRACT_PRECISION, EXP_PRECISION]; norm_num)
  have l1' : fv1.length = 32 := by rw [l1]; rfl
  have hel : (enc_exp_vect f0).length = 8 := by
    unfold enc_exp_vect
    rw [(vect_reverse_pbit _).1]
    rfl
  obtain ⟨fv2, e2, l2, _, p2⟩ := vect_copy_pbit (enc_exp_vect f0) fv1 1
    (by rw [hel]; norm_num) (by rw [l1']; norm_num)
  have hil : (apply_writes { data := ii, length := enc_L f0 } (enc_int_trace f0).1).length
      = enc_L f0 := by rw [apply_writes_length]
  obtain ⟨fv3, e3, l3, _, p3⟩ := vect_copy_pbit
    (apply_writes { data := ii, length := enc_L f0 } (enc_int_trace f0).1) fv2 9
    (by rw [hil]; omega) (by rw [l2, l1']; norm_num)
  have hdl : (apply_writes { data := id, length := enc_D f0 } t.1).length = enc_D f0 := by
    rw [apply_writes_length]
  obtain ⟨fv4, e4, l4, _, p4⟩ := vect_copy_pbit
    (apply_writes { data := id, length := enc_D f0 } t.1) fv3 (9 + enc_L f0)
    (by rw [hdl]; omega) (by rw [l3, l2, l1']; norm_num)
  have hU : toUInt ((1 + EXP_PRECISION + enc_L f0 : Nat) : Int) = 9 + enc_L f0 := by
    unfold toUInt EXP_PRECISION; omega
  have h32 : fv4.length = 32 := by rw [l4, l3, l2, l1']
  obtain ⟨lr, pr⟩ := vect_reverse_pbit fv4
  have hm : (toInt (fv4.length : Int)).toNat = 32 := by rw [h32]; rfl
  refine ⟨vect_reverse fv4, ?_, by rw [lr, h32], ?_⟩
  · rw [float_to_binary_unfold, int_part_loop_eq, decimal_part_loop_eq]
    simp only [hi, h, Option.map_some', Option.some_bind, e1, e2, hil, hU]
    have h9 : 1 + EXP_PRECISION = 9 := rfl
    rw [h9, e3]
    simp only [Option.some_bind, e4]
  · intro p hp
    rw [pr p, hm, if_pos hp, p4, p3, p2, p1, hel, hil, hdl, l3, l2, l1']
    simp only [pbit_apply_writes]
    unfold enc_big_bit
    obtain ⟨e31, hq32, e32, e33⟩ := sub_rearrange p (enc_L f0) hp
    rw [e31, e32, e33]
    exact assemble_cases (enc_L f0) (enc_D f0) (31 - p) hL hD hq32 _ _ _
      (fun q => pbit (fun _ => enc_sign f0) q) _

/-! ## The example of `main.c` -/

theorem example_bits_eval :
    ∀ i, i < 32 → ∀ bi bd : Bool,
      enc_bit main_float i bi bd = some (Nat.testBit 1182331443 i) := by
  decide!

/-- For the value of `main.c`, whatever the three buffers of the encoder
hold, `float_to_binary` returns a vector of 32 bits whose bit `i` is bit `i`
of the IEEE-754 word `0x4678F233`. -/
theorem float_example_bits (ir ii id : Nat → Nat) :
    ∃ r, float_to_binary ir ii id main_float = some r ∧ r.length = 32 ∧
      ∀ i, i < 32 → vect_get_bit r i = if Nat.testBit 1182331443 i then 1 else 0 := by
  have h0 := example_bits_eval 0 (by norm_num) false false
  unfold enc_bit at h0
  cases ht : enc_dec_trace main_float with
  | none => rw [ht] at h0; simp at h0
  | some t =>
    obtain ⟨r, hr, hl, hp⟩ := float_to_binary_some ir ii id main_float t ht
    refine ⟨r, hr, hl, ?_⟩
    intro i hi
    have he := example_bits_eval i hi (pbit ii (31 - i - 9)) (pbit id (31 - i - 9 - enc_L main_float))
    unfold enc_bit at he
    rw [ht] at he
    simp only [Option.map_some', Option.some.injEq] at he
    rw [vect_get_bit_eq r i (by rw [hl]; exact hi), hp i hi, he]

theorem main_output_clean_eval :
    main_computed (fun _ => 0) (fun _ => 0) (fun _ => 0) (fun _ => Char.ofNat 0)
      = some "11001100 01001111 00011110 01100010".toList := by
  decide!

/-- C9 (the code departs from it). With a buffer from `malloc` in
`bytes_to_str` that starts with the character `x`, the string `main` prints
for `15932.5497` is `x1100110 01001111 00011110 01100010`: `strcat` appends
after the character already there and the first delimiter overwrites the
eighth digit. -/
theorem main_output_dirty_string_buffer :
    main_computed (fun _ => 0) (fun _ => 0) (fun _ => 0)
        (fun k => if k = 0 then 'x' else Char.ofNat 0)
      = some "x1100110 01001111 00011110 01100010".toList := by
  decide!

/-! ## The encoding of `1.0` -/

theorem one_fields_dirty_eval :
    (float_to_binary (fun _ => 0) (fun _ => 0) (fun _ => 255) 1).map
        (fun r => (r.length, vect_get_bit r 31, bits_value r 23 8, bits_value r 0 23))
      = some (32, 0, 127, 8388607) := by
  decide!

/-- C10 (the code departs from it). For `f = 1.0` and a decimal-part buffer
that `malloc` returns filled with ones, the encoder writes no fraction bit:
the result has sign `0`, exponent field `127` and fraction field `2^23 - 1`,
and denotes `16777215 / 8388608`, not `1`. -/
theorem one_decodes_wrong_with_dirty_buffer :
    ∃ r, float_to_binary (fun _ => 0) (fun _ => 0) (fun _ => 255) 1 = some r ∧
      r.length = 32 ∧ vect_get_bit r 31 = 0 ∧ bits_value r 23 8 = 127 ∧
      bits_value r 0 23 = 8388607 ∧ decoded_value r = 16777215 / 8388608 ∧
      decoded_value r ≠ 1 := by
  obtain ⟨r, hr, hv⟩ := Option.map_eq_some'.mp one_fields_dirty_eval
  simp only [Prod.mk.injEq] at hv
  obtain ⟨h1, h2, h3, h4⟩ := hv
  have hd : decoded_value r = 16777215 / 8388608 := by
    unfold decoded_value
    rw [h2, h3, h4]
    norm_num
  refine ⟨r, hr, h1, h2, h3, h4, hd, ?_⟩
  rw [hd]
  norm_num

theorem one_bits_eval :
    ∀ i, i < 32 → ∀ bi bd : Bool,
      enc_bit 1 i bi bd = some (if i < 23 then bd else if i < 30 then true else false)
      ∧ enc_L 1 = 0 := by
  decide!

/-- C11 (the code departs from it). Whatever the buffers hold,
`float_to_binary(1.0)` returns 32 bits with bit `31` and bit `30` equal to
`0` and bits `23..29` equal to `1`, but the fraction bits `0..22` are never
written: bit `k` is the bit `22 - k` of the buffer `malloc` returned for the
decimal-part vector. -/
theorem one_fraction_is_buffer_content (ir ii id : Nat → Nat) :
    ∃ r, float_to_binary ir ii id 1 = some r ∧ r.length = 32 ∧
      vect_get_bit r 31 = 0 ∧ vect_get_bit r 30 = 0 ∧
      (∀ k, 23 ≤ k → k < 30 → vect_get_bit r k = 1) ∧
      (∀ k, k < 23 → vect_get_bit r k = if pbit id (22 - k) then 1 else 0) := by
  have h0 := (one_bits_eval 0 (by norm_num) false false).1
  have hL := (one_bits_eval 0 (by norm_num) false false).2
  unfold enc_bit at h0
  cases ht : enc_dec_trace 1 with
  | none => rw [ht] at h0; simp at h0
  | some t =>
    obtain ⟨r, hr, hl, hp⟩ := float_to_binary_some ir ii id 1 t ht
    have key : ∀ i, i < 32 → vect_get_bit r i =
        if (if i < 23 then pbit id (31 - i - 9 - enc_L 1) else if i < 30 then true else false)
        then 1 else 0 := by
      intro i hi
      have he := (one_bits_eval i hi (pbit ii (31 - i - 9)) (pbit id (31 - i - 9 - enc_L 1))).1
      unfold enc_bit at he
      rw [ht] at he
      simp only [Option.map_some', Option.some.injEq] at he
      rw [vect_get_bit_eq r i (by rw [hl]; exact hi), hp i hi, he]
    refine ⟨r, hr, hl, ?_, ?_, ?_, ?_⟩
    · rw [key 31 (by norm_num)]; rfl
    · rw [key 30 (by norm_num)]; rfl
    · intro k h1 h2
      have hk32 : k < 32 := by omega
      have hk23 : ¬ k < 23 := by omega
      rw [key k hk32, if_neg hk23, if_pos h2]; rfl
    · intro k hk
      have hk32 : k < 32 := by omega
      have e : 31 - k - 9 - 0 = 22 - k := by omega
      rw [key k hk32, if_pos hk, hL, e]

theorem neg_one_dirty_eval :
    (float_to_binary (fun _ => 0) (fun _ => 0) (fun _ => 255) (-1)).map
        (fun r => (vect_get_bit r 31, vect_get_bit r 0)) = some (1, 1) := by
  decide!

theorem one_clean_eval :
    (float_to_binary (fun _ => 0) (fun _ => 0) (fun _ => 0) 1).map
        (fun r => (vect_get_bit r 31, vect_get_bit r 0)) = some (0, 0) := by
  decide!

theorem one_dirty_eval :
    (float_to_binary (fun _ => 0) (fun _ => 0) (fun _ => 255) 1).map
        (fun r => (vect_get_bit r 31, vect_get_bit r 0)) = some (0, 1) := by
  decide!

/-- C12 (the code departs from it). `float_to_binary(-1.0)` run with a
decimal-part buffer that `malloc` returns filled with ones and
`float_to_binary(1.0)` run with one filled with zeros differ in the sign bit
`31` and also in the fraction bit `0`, which neither call writes. -/
theorem neg_one_and_one_differ_in_fraction :
    ∃ r1 r2, float_to_binary (fun _ => 0) (fun _ => 0) (fun _ => 255) (-1) = some r1 ∧
      float_to_binary (fun _ => 0) (fun _ => 0) (fun _ => 0) 1 = some r2 ∧
      vect_get_bit r1 31 = 1 ∧ vect_get_bit r2 31 = 0 ∧
      vect_get_bit r1 0 = 1 ∧ vect_get_bit r2 0 = 0 := by
  obtain ⟨r1, e1, h1⟩ := Option.map_eq_some'.mp neg_one_dirty_eval
  obtain ⟨r2, e2, h2⟩ := Option.map_eq_some'.mp one_clean_eval
  simp only [Prod.mk.injEq] at h1 h2
  exact ⟨r1, r2, e1, e2, h1.1, h2.1, h1.2, h2.2⟩

/-- C13 (the code departs from it). Two runs of `float_to_binary` on the same
value `1.0` return different vectors when `malloc` hands the decimal-part
vector a buffer filled with ones in one run and with zeros in the other: bit
`0` of the result is `1` in the first and `0` in the second. -/
theorem one_depends_on_buffer_content :
    ∃ r1 r2, float_to_binary (fun _ => 0) (fun _ => 0) (fun _ => 255) 1 = some r1 ∧
      float_to_binary (fun _ => 0) (fun _ => 0) (fun _ => 0) 1 = some r2 ∧
      vect_get_bit r1 0 = 1 ∧ vect_get_bit r2 0 = 0 ∧
      vect_get_bit r1 0 ≠ vect_get_bit r2 0 := by
  obtain ⟨r1, e1, h1⟩ := Option.map_eq_some'.mp one_dirty_eval
  obtain ⟨r2, e2, h2⟩ := Option.map_eq_some'.mp one_clean_eval
  simp only [Prod.mk.injEq] at h1 h2
  refine ⟨r1, r2, e1, e2, h1.2, h2.2, ?_⟩
  rw [h1.2, h2.2]
  decide

/-! ## The exponent -/

theorem truncQ_eq_floor (q : ℚ) (hq : 0 ≤ q) : truncQ q = ⌊q⌋ := by
  unfold truncQ
  rw [Rat.floor_def, Int.tdiv_eq_ediv (Rat.num_nonneg.mpr hq) (by positivity)]

theorem exp_loop_int_spec :
    ∀ (fuel n : Nat) (pos : Int), n < 2 ^ fuel → 0 ≤ pos → pos + fuel ≤ MAX_EXP + 2 →
      ∃ k : Nat, exp_loop_int fuel (n : Int) pos = pos + k ∧ (n = 0 → k = 0) ∧
        (0 < n → 2 ^ (k - 1) ≤ n ∧ n < 2 ^ k ∧ 1 ≤ k) := by
  intro fuel
  induction fuel with
  | zero =>
    intro n pos hn _ _
    have : n = 0 := by simpa using hn
    subst this
    exact ⟨0, by simp [exp_loop_int], fun _ => rfl, fun h => absurd h (lt_irrefl _)⟩
  | succ f ih =>
    intro n pos hn hpos hbound
    by_cases hn0 : n = 0
    · subst hn0
      refine ⟨0, ?_, fun _ => rfl, fun h => absurd h (lt_irrefl _)⟩
      simp [exp_loop_int]
    · have hc : (n : Int) ≠ 0 ∧ pos ≤ MAX_EXP + 1 := by
        refine ⟨by exact_mod_cast hn0, ?_⟩
        push_cast at hbound
        omega
      have hdiv : Int.tdiv (n : Int) 2 = ((n / 2 : Nat) : Int) := by
        rw [Int.tdiv_eq_ediv (by positivity) (by norm_num)]
        norm_cast
      have hlt : n / 2 < 2 ^ f := by
        rw [pow_succ] at hn
        omega
      obtain ⟨k, hk, hk0, hkpos⟩ := ih (n / 2) (pos + 1) hlt (by omega)
        (by push_cast at hbound ⊢; omega)
      refine ⟨k + 1, ?_, fun h => absurd h hn0, fun _ => ?_⟩
      · simp only [exp_loop_int, if_pos hc, hdiv, hk]
        push_cast
        ring
      · by_cases h2 : n / 2 = 0
        · have hk' := hk0 h2
          subst hk'
          have : n = 1 := by omega
          subst this
          simp
        · obtain ⟨a, b, c⟩ := hkpos (Nat.pos_of_ne_zero h2)
          have e : k + 1 - 1 = (k - 1) + 1 := by omega
          rw [e, pow_succ, pow_succ]
          omega

theorem exp_loop_frac_spec :
    ∀ (fuel : Nat) (f : ℚ) (pos : Int), 0 < f → f < 2 → (2 : ℚ) ^ (-(fuel : Int)) ≤ f →
      MIN_EXP - 1 ≤ pos - fuel →
      (2 : ℚ) ^ (exp_loop_frac fuel f pos - pos) ≤ f ∧
      f < (2 : ℚ) ^ (exp_loop_frac fuel f pos - pos + 1) := by
  intro fuel
  induction fuel with
  | zero =>
    intro f pos _ h2 h1 _
    simp only [exp_loop_frac, sub_self, zpow_zero, zero_add, zpow_one]
    simp only [Nat.cast_zero, neg_zero, zpow_zero] at h1
    exact ⟨h1, h2⟩
  | succ n ih =>
    intro f pos hf0 hf2 hlow hpos
    by_cases hc : f < 1 ∧ pos ≥ MIN_EXP
    · simp only [exp_loop_frac, if_pos hc]
      have hlow2 : (2 : ℚ) ^ (-(n : Int)) ≤ f * 2 := by
        have e : (2 : ℚ) ^ (-(n : Int)) = (2 : ℚ) ^ (-((n + 1 : Nat) : Int)) * 2 := by
          rw [← zpow_add_one₀ (by norm_num : (2 : ℚ) ≠ 0)]
          congr 1
          push_cast
          ring
        rw [e]
        exact mul_le_mul_of_nonneg_right hlow (by norm_num)
      obtain ⟨a, b⟩ := ih (f * 2) (pos - 1) (by positivity) (by linarith [hc.1]) hlow2
        (by push_cast at hpos ⊢; omega)
      have e1 : exp_loop_frac n (f * 2) (pos - 1) - (pos - 1)
          = (exp_loop_frac n (f * 2) (pos - 1) - pos) + 1 := by ring
      rw [e1] at a b
      rw [zpow_add_one₀ (by norm_num : (2 : ℚ) ≠ 0)] at a b
      constructor
      · linarith
      · linarith
    · simp only [exp_loop_frac, if_neg hc, sub_self, zpow_zero, zero_add, zpow_one]
      have hp : pos ≥ MIN_EXP := by
        push_cast at hpos
        omega
      have : ¬ f < 1 := fun h => hc ⟨h, hp⟩
      exact ⟨le_of_not_lt this, hf2⟩

theorem MAX_EXP_eq : MAX_EXP = 128 := by decide

theorem MIN_EXP_eq : MIN_EXP = -127 := by decide

/-- C14. For a value `f` with `2^-127 ≤ f < 2^31`, the exponent
`e = get_exp_base_two(f)` satisfies `2^e ≤ f < 2^(e+1)`; for `f ≥ 1` it is the
number of halvings that bring the integer part of `f` to `0`, minus one. -/
theorem get_exp_base_two_spec (f : ℚ) (h1 : (2 : ℚ) ^ (-127 : Int) ≤ f)
    (h2 : f < 2 ^ 31) :
    (2 : ℚ) ^ (get_exp_base_two (FloatVal.fin f)) ≤ f ∧
    f < (2 : ℚ) ^ (get_exp_base_two (FloatVal.fin f) + 1) ∧
    (1 ≤ f → get_exp_base_two (FloatVal.fin f)
      = exp_loop_int 130 (toInt (truncQ f)) 0 - 1) := by
  have hpos : 0 < f := lt_of_lt_of_le (by positivity) h1
  have hne : f ≠ 0 := ne_of_gt hpos
  have hfuel1 : (MAX_EXP + 2).toNat = 130 := by decide
  have hfuel2 : (1 - MIN_EXP).toNat = 128 := by decide
  by_cases hge : f ≥ 1
  · have hval : get_exp_base_two (FloatVal.fin f)
        = exp_loop_int 130 (toInt (truncQ f)) 0 - 1 := by
      simp only [get_exp_base_two, if_neg hne, if_pos hge, hfuel1]
    have hfl0 : 0 ≤ ⌊f⌋ := Int.floor_nonneg.mpr (le_of_lt hpos)
    have hfl1 : (1 : Int) ≤ ⌊f⌋ := Int.le_floor.mpr (by exact_mod_cast hge)
    have hfl2 : ⌊f⌋ < 2147483648 := by
      rw [Int.floor_lt]
      norm_num at h2 ⊢
      exact h2
    obtain ⟨N, hN⟩ : ∃ N : Nat, ⌊f⌋ = (N : Int) := ⟨⌊f⌋.toNat, by omega⟩
    have hNpos : 0 < N := by omega
    have hNlt : N < 2147483648 := by omega
    have htr : toInt (truncQ f) = (N : Int) := by
      rw [truncQ_eq_floor f (le_of_lt hpos), hN]
      exact toInt_natCast N hNlt
    obtain ⟨k, hk, _, hk2⟩ := exp_loop_int_spec 130 N 0
      (lt_of_lt_of_le hNlt (by norm_num)) (le_refl _) (by rw [MAX_EXP_eq]; norm_num)
    obtain ⟨a, b, c⟩ := hk2 hNpos
    have he : get_exp_base_two (FloatVal.fin f) = ((k - 1 : Nat) : Int) := by
      rw [hval, htr, hk]
      omega
    have hNf : (N : ℚ) ≤ f := by
      have := Int.floor_le f
      rw [hN] at this
      exact_mod_cast this
    have hfN : f < (N : ℚ) + 1 := by
      have := Int.lt_floor_add_one f
      rw [hN] at this
      exact_mod_cast this
    refine ⟨?_, ?_, fun _ => hval⟩
    · rw [he, zpow_natCast]
      calc (2 : ℚ) ^ (k - 1) = ((2 ^ (k - 1) : Nat) : ℚ) := by push_cast; rfl
        _ ≤ (N : ℚ) := by exact_mod_cast a
        _ ≤ f := hNf
    · have e1 : ((k - 1 : Nat) : Int) + 1 = (k : Int) := by omega
      rw [he, e1, zpow_natCast]
      calc f < (N : ℚ) + 1 := hfN
        _ ≤ ((2 ^ k : Nat) : ℚ) := by exact_mod_cast b
        _ = (2 : ℚ) ^ k := by push_cast; rfl
  · have hlt : f < 1 := lt_of_not_ge hge
    have hval : get_exp_base_two (FloatVal.fin f) = exp_loop_frac 128 f 0 := by
      simp only [get_exp_base_two, if_neg hne, if_neg hge, hfuel2]
    have hlow : (2 : ℚ) ^ (-((128 : Nat) : Int)) ≤ f := by
      refine le_trans ?_ h1
      apply zpow_le_zpow_right₀ (by norm_num)
      norm_num
    obtain ⟨a, b⟩ := exp_loop_frac_spec 128 f 0 hpos (by linarith) hlow
      (by rw [MIN_EXP_eq]; norm_num)
    rw [sub_zero] at a b
    refine ⟨?_, ?_, fun h => absurd h hge⟩
    · rw [hval]; exact a
    · rw [hval]; exact b

theorem get_exp_base_two_spec_witness :
    ((2 : ℚ) ^ (-127 : Int) ≤ 3 / 8 ∧ (3 / 8 : ℚ) < 2 ^ 31) ∧
    ((2 : ℚ) ^ (get_exp_base_two (FloatVal.fin (3 / 8))) ≤ 3 / 8 ∧
    (3 / 8 : ℚ) < (2 : ℚ) ^ (get_exp_base_two (FloatVal.fin (3 / 8)) + 1) ∧
    (1 ≤ (3 / 8 : ℚ) → get_exp_base_two (FloatVal.fin (3 / 8))
      = exp_loop_int 130 (toInt (truncQ (3 / 8))) 0 - 1)) :=
  ⟨⟨by norm_num, by norm_num⟩,
    get_exp_base_two_spec (3 / 8) (by norm_num) (by norm_num)⟩

/-- C15 (the code departs from it). For the smallest positive subnormal
value `2^-149`, `get_exp_base_two` returns `-128`, which is below
`MIN_EXP = -127`: the second loop still runs at `pos = MIN_EXP`. -/
theorem get_exp_base_two_below_min :
    get_exp_base_two (FloatVal.fin (1 / 2 ^ 149)) = -128 ∧
    get_exp_base_two (FloatVal.fin (1 / 2 ^ 149)) < MIN_EXP ∧
    get_exp_base_two (FloatVal.fin (1 / 2 ^ 149)) + EXP_BIAS < 0 := by
  decide!

/-- The exponent of zero and of `+infinity` are the two bounds. -/
theorem get_exp_base_two_zero_inf :
    get_exp_base_two (FloatVal.fin 0) = MIN_EXP ∧ get_exp_base_two FloatVal.inf = MAX_EXP := by
  decide!

/-- C16. `vect_get_bit(v, i)` is the sentinel `255` exactly when
`i ≥ v.length`; for `i < v.length` it is `0` or `1`. -/
theorem vect_get_bit_sentinel (v : BitVector) (i : Nat) :
    (vect_get_bit v i = 255 ↔ v.length ≤ i) ∧
    (i < v.length → vect_get_bit v i = 0 ∨ vect_get_bit v i = 1) := by
  have hvalid : i < v.length → vect_get_bit v i = 0 ∨ vect_get_bit v i = 1 := by
    intro hi
    rw [vect_get_bit_eq v i hi]
    cases pbit v.data i
    · left; rfl
    · right; rfl
  refine ⟨⟨?_, vect_get_bit_of_ge v i⟩, hvalid⟩
  intro h
  by_contra hlt
  rcases hvalid (not_le.mp hlt) with h0 | h1
  · rw [h0] at h; exact absurd h (by decide)
  · rw [h1] at h; exact absurd h (by decide)

theorem vect_get_bit_sentinel_witness :
    ((vect_get_bit (BitVector.mk (fun _ => 181) 13) 5 = 255
        ↔ (BitVector.mk (fun _ => 181) 13).length ≤ 5) ∧
      (5 < (BitVector.mk (fun _ => 181) 13).length →
        vect_get_bit (BitVector.mk (fun _ => 181) 13) 5 = 0 ∨
        vect_get_bit (BitVector.mk (fun _ => 181) 13) 5 = 1)) ∧
    5 < (BitVector.mk (fun _ => 181) 13).length :=
  ⟨vect_get_bit_sentinel (BitVector.mk (fun _ => 181) 13) 5, by decide⟩

/-- For a length from `1` to `2^64 - 1`, `get_num_bytes` is the length divided
by eight, rounded up. -/
theorem get_num_bytes_pos (L : Nat) (h1 : 1 ≤ L) (h2 : L < 18446744073709551616) :
    get_num_bytes L = (L + 7) / 8 := by
  unfold get_num_bytes toSizeT BITS_PER_BYTE
  omega

/-- C18 (the code departs from it). `get_num_bytes(0)` is `2^61`, not `0`:
`length - 1` wraps around in `size_t`. -/
theorem get_num_bytes_zero :
    get_num_bytes 0 = 2305843009213693952 ∧ get_num_bytes 0 ≠ 0 := by
  decide

/-- C17 (the code departs from it). On the 13-bit vector with bytes `0xA5`,
delimiter `' '`, the rendering is `10100101 10100`; with a buffer from
`malloc` in `bytes_to_str` that starts with the character `x`,
`vect_to_str` returns `x1010010 10100`. -/
theorem vect_to_str_dirty_buffer :
    render_spec (BitVector.mk (fun _ => 165) 13) ' ' = "10100101 10100".toList ∧
    vect_to_str_string (fun _ => Char.ofNat 0) (BitVector.mk (fun _ => 165) 13) ' '
      = some "10100101 10100".toList ∧
    vect_to_str_string (fun k => if k = 0 then 'x' else Char.ofNat 0)
        (BitVector.mk (fun _ => 165) 13) ' '
      = some "x1010010 10100".toList := by
  decide!

/-! ## Frame of the in-place operations -/

theorem frameOK_refl (v : BitVector) : FrameOK v v := ⟨rfl, fun _ _ => rfl⟩

theorem frameOK_trans (a b c : BitVector) (h1 : FrameOK a b) (h2 : FrameOK b c) :
    FrameOK a c :=
  ⟨by rw [h2.1, h1.1], fun p hp => by rw [h2.2 p (by rw [h1.1]; exact hp), h1.2 p hp]⟩

theorem frameOK_set_bit (v : BitVector) (i x : Nat) : FrameOK v (vect_set_bit v i x) := by
  refine ⟨vect_set_bit_length v i x, ?_⟩
  intro p hp
  by_cases hi : i < v.length
  · exact pbit_vect_set_bit_ne v i x p (by omega)
  · rw [vect_set_bit_of_ge v i x (by omega)]

theorem frameOK_right_shift_inner (s : Nat) :
    ∀ (fuel : Nat) (v : BitVector) (j : Int) (prev : Nat) (r : BitVector),
      right_shift_inner s fuel v j prev = some r → FrameOK v r := by
  intro fuel
  induction fuel with
  | zero => intro v j prev r h; simp [right_shift_inner] at h
  | succ f ih =>
    intro v j prev r h
    by_cases hc : toSizeT j < v.length
    · simp only [right_shift_inner, if_pos hc] at h
      exact frameOK_trans _ _ _ (frameOK_set_bit _ _ _) (ih _ _ _ _ h)
    · simp only [right_shift_inner, if_neg hc, Option.some.injEq] at h
      subst h
      exact frameOK_refl _

theorem frameOK_right_shift_outer (s : Nat) :
    ∀ (fuel : Nat) (v : BitVector) (i : Int) (r : BitVector),
      right_shift_outer s fuel v i = some r → FrameOK v r := by
  intro fuel
  induction fuel with
  | zero => intro v i r h; simp [right_shift_outer] at h
  | succ f ih =>
    intro v i r h
    by_cases hc : toUInt i < s
    · simp only [right_shift_outer, if_pos hc] at h
      cases hin : right_shift_inner s (v.length + 1) v i 0 with
      | none => rw [hin] at h; simp at h
      | some v1 =>
        rw [hin] at h
        simp only at h
        exact frameOK_trans _ _ _ (frameOK_right_shift_inner s _ _ _ _ _ hin) (ih _ _ _ h)
    · simp only [right_shift_outer, if_neg hc, Option.some.injEq] at h
      subst h
      exact frameOK_refl _

theorem frameOK_left_shift_inner (s : Nat) :
    ∀ (fuel : Nat) (v : BitVector) (j : Int) (prev : Nat) (r : BitVector),
      left_shift_inner s fuel v j prev = some r → FrameOK v r := by
  intro fuel
  induction fuel with
  | zero => intro v j prev r h; simp [left_shift_inner] at h
  | succ f ih =>
    intro v j prev r h
    by_cases hc : j ≥ 0
    · simp only [left_shift_inner, if_pos hc] at h
      exact frameOK_trans _ _ _ (frameOK_set_bit _ _ _) (ih _ _ _ _ h)
    · simp only [left_shift_inner, if_neg hc, Option.some.injEq] at h
      subst h
      exact frameOK_refl _

theorem frameOK_left_shift_outer (s : Nat) :
    ∀ (fuel : Nat) (v : BitVector) (i : Int) (r : BitVector),
      left_shift_outer s fuel v i = some r → FrameOK v r := by
  intro fuel
  induction fuel with
  | zero => intro v i r h; simp [left_shift_outer] at h
  | succ f ih =>
    intro v i r h
    by_cases hc : toSizeT i > toSizeT ((v.length : Int) - (s : Int) - 1)
    · simp only [left_shift_outer, if_pos hc] at h
      cases hin : left_shift_inner s 2147483649 v i 0 with
      | none => rw [hin] at h; simp at h
      | some v1 =>
        rw [hin] at h
        simp only at h
        exact frameOK_trans _ _ _ (frameOK_left_shift_inner s _ _ _ _ _ hin) (ih _ _ _ h)
    · simp only [left_shift_outer, if_neg hc, Option.some.injEq] at h
      subst h
      exact frameOK_refl _

theorem frameOK_copy_loop (src : BitVector) (o : Nat) :
    ∀ (fuel : Nat) (dest : BitVector) (i : Int) (r : BitVector),
      copy_loop src o fuel dest i = some r → FrameOK dest r := by
  intro fuel
  induction fuel with
  | zero => intro dest i r h; simp [copy_loop] at h
  | succ f ih =>
    intro dest i r h
    by_cases hc : toSizeT i < src.length
    · by_cases hb : toUInt ((o : Int) + i) ≥ dest.length
      · simp only [copy_loop, if_pos hc, if_pos hb, Option.some.injEq] at h
        subst h
        exact frameOK_refl _
      · simp only [copy_loop, if_pos hc, if_neg hb] at h
        exact frameOK_trans _ _ _ (frameOK_set_bit _ _ _) (ih _ _ _ h)
    · simp only [copy_loop, if_neg hc, Option.some.injEq] at h
      subst h
      exact frameOK_refl _

theorem frameOK_reverse_loop :
    ∀ (count : Nat) (v : BitVector) (i : Nat), FrameOK v (reverse_loop count v i) := by
  intro count
  induction count with
  | zero => intro v i; exact frameOK_refl _
  | succ c ih =>
    intro v i
    simp only [reverse_loop]
    exact frameOK_trans _ _ _
      (frameOK_trans _ _ _ (frameOK_set_bit _ _ _) (frameOK_set_bit _ _ _)) (ih _ _)

/-- C19. Every in-place operation keeps the length of the vector and every
physical bit of the backing store that is not a logical index below the
length: `vect_set_bit` and `vect_reverse` for all arguments, the two shifts
and `vect_copy` (on its destination) for all arguments whenever they return;
and they do return when the lengths and the shift fit the `int` and
`unsigned int` counters. -/
theorem in_place_operations_frame (v : BitVector) :
    (∀ i x, FrameOK v (vect_set_bit v i x)) ∧
    FrameOK v (vect_reverse v) ∧
    (∀ s r, vect_right_shift v s = some r → FrameOK v r) ∧
    (∀ s r, vect_left_shift v s = some r → FrameOK v r) ∧
    (∀ src o r, vect_copy src v o = some r → FrameOK v r) ∧
    (v.length ≤ 2147483648 → ∀ s, s < 2147483648 → ∃ r, vect_right_shift v s = some r) ∧
    (1 ≤ v.length → v.length ≤ 2147483648 → ∀ s, s < 4294967296 →
      ∃ r, vect_left_shift v s = some r) ∧
    (v.length < 4294967296 → ∀ src o, src.length < 2147483648 →
      ∃ r, vect_copy src v o = some r) := by
  refine ⟨frameOK_set_bit v, frameOK_reverse_loop _ v 0, ?_, ?_, ?_, ?_, ?_, ?_⟩
  · intro s r h
    exact frameOK_right_shift_outer s _ _ _ _ h
  · intro s r h
    exact frameOK_left_shift_outer s _ _ _ _ h
  · intro src o r h
    by_cases ho : o ≥ v.length
    · simp only [vect_copy, if_pos ho, Option.some.injEq] at h
      subst h
      exact frameOK_refl _
    · simp only [vect_copy, if_neg ho] at h
      exact frameOK_copy_loop src o _ _ _ _ h
  · intro hn s hs
    obtain ⟨r, hr, _⟩ := vect_right_shift_pbit v s hn hs
    exact ⟨r, hr⟩
  · intro h1 hn s hs
    by_cases hsn : s < v.length
    · obtain ⟨r, hr, _⟩ := vect_left_shift_pbit v s hn hsn
      exact ⟨r, hr⟩
    · exact ⟨v, vect_left_shift_ge_length v s h1 hn (by omega) hs⟩
  · intro hn src o hsrc
    obtain ⟨r, hr, _⟩ := vect_copy_pbit src v o hsrc hn
    exact ⟨r, hr⟩

theorem in_place_operations_frame_witness :
    ∃ r, vect_right_shift (BitVector.mk (fun _ => 181) 13) 5 = some r ∧
      FrameOK (BitVector.mk (fun _ => 181) 13) r := by
  obtain ⟨r, hr⟩ := (in_place_operations_frame (BitVector.mk (fun _ => 181) 13)).2.2.2.2.2.1
    (by decide) 5 (by decide)
  exact ⟨r, hr, (in_place_operations_frame (BitVector.mk (fun _ => 181) 13)).2.2.1 5 r hr⟩

/-! ## Shifts and reversal -/

theorem toInt_toNat_of_lt (n : Nat) (hn : n < 2147483648) : (toInt (n : Int)).toNat = n := by
  rw [toInt_natCast n hn]; rfl

theorem mirror_arith (n s i : Nat) (hi : i < n) :
    n - 1 - i < n ∧ (n - 1 - i < s ↔ n ≤ i + s) ∧
    (¬ n - 1 - i < s → n - 1 - i - s < n ∧ n - 1 - (n - 1 - i - s) = i + s) := by
  omega

/-- C20 (amended). For a vector of length `n ≤ INT_MAX` and a shift `s < n`,
`vect_reverse`, then `vect_right_shift` by `s`, then `vect_reverse` gives the
same bits `0..n-1` as `vect_left_shift` by `s`. -/
theorem left_shift_is_mirrored_right_shift (v : BitVector) (s : Nat)
    (hn : v.length < 2147483648) (hs : s < v.length) :
    ∃ r1 r2, vect_right_shift (vect_reverse v) s = some r1 ∧
      vect_left_shift v s = some r2 ∧
      ∀ i, i < v.length → vect_get_bit (vect_reverse r1) i = vect_get_bit r2 i := by
  obtain ⟨l0, p0⟩ := vect_reverse_pbit v
  rw [toInt_toNat_of_lt v.length hn] at p0
  obtain ⟨r1, e1, l1, p1⟩ := vect_right_shift_pbit (vect_reverse v) s
    (by rw [l0]; exact le_of_lt hn) (lt_trans hs hn)
  rw [l0] at l1 p1
  obtain ⟨l2, p2⟩ := vect_reverse_pbit r1
  rw [l1, toInt_toNat_of_lt v.length hn] at p2
  rw [l1] at l2
  obtain ⟨r2, e3, l3, p3⟩ := vect_left_shift_pbit v s (le_of_lt hn) hs
  refine ⟨r1, r2, e1, e3, ?_⟩
  intro i hi
  obtain ⟨a, b, c⟩ := mirror_arith v.length s i hi
  rw [vect_get_bit_eq _ i (by rw [l2]; exact hi), vect_get_bit_eq r2 i (by rw [l3]; exact hi),
    p2 i, if_pos hi, p1 _, if_pos a, p3 i, if_pos hi]
  by_cases hc : v.length - 1 - i < s
  · rw [if_pos hc, if_pos (b.mp hc)]
  · obtain ⟨c1, c2⟩ := c hc
    rw [if_neg hc, if_neg (fun h => hc (b.mpr h)), p0 _, if_pos c1, c2]

theorem left_shift_is_mirrored_right_shift_witness :
    ((BitVector.mk (fun _ => 181) 13).length < 2147483648 ∧
      5 < (BitVector.mk (fun _ => 181) 13).length) ∧
    ∃ r1 r2, vect_right_shift (vect_reverse (BitVector.mk (fun _ => 181) 13)) 5 = some r1 ∧
      vect_left_shift (BitVector.mk (fun _ => 181) 13) 5 = some r2 ∧
      ∀ i, i < (BitVector.mk (fun _ => 181) 13).length →
        vect_get_bit (vect_reverse r1) i = vect_get_bit r2 i :=
  ⟨⟨by decide, by decide⟩,
    left_shift_is_mirrored_right_shift (BitVector.mk (fun _ => 181) 13) 5
      (by decide) (by decide)⟩

/-- C20, as stated, fails: on the vector of `2^31` bits whose only set bit is
bit `0`, `vect_reverse` does nothing, so reversing, shifting right by `1` and
reversing again moves the set bit to index `1`, while `vect_left_shift` by
`1` clears the vector. -/
theorem mirrored_shift_counterexample :
    ¬ ∃ r1 r2,
      vect_right_shift
        (vect_reverse (BitVector.mk (fun k => if k = 0 then 1 else 0) 2147483648)) 1 = some r1 ∧
      vect_left_shift (BitVector.mk (fun k => if k = 0 then 1 else 0) 2147483648) 1 = some r2 ∧
      ∀ i, i < 2147483648 → vect_get_bit (vect_reverse r1) i = vect_get_bit r2 i := by
  rintro ⟨r1, r2, e1, e2, hbits⟩
  have hrev : vect_reverse (BitVector.mk (fun k => if k = 0 then 1 else 0) 2147483648)
      = BitVector.mk (fun k => if k = 0 then 1 else 0) 2147483648 := by
    rfl
  rw [hrev] at e1
  obtain ⟨r1', e1', l1, p1⟩ := vect_right_shift_pbit
    (BitVector.mk (fun k => if k = 0 then 1 else 0) 2147483648) 1 (by decide) (by decide)
  rw [e1] at e1'
  have h1 := Option.some.inj e1'
  subst h1
  obtain ⟨r2', e2', l3, p3⟩ := vect_left_shift_pbit
    (BitVector.mk (fun k => if k = 0 then 1 else 0) 2147483648) 1 (by decide) (by decide)
  rw [e2] at e2'
  have h2 := Option.some.inj e2'
  subst h2
  obtain ⟨l2, p2⟩ := vect_reverse_pbit r1
  have hm : (toInt (r1.length : Int)).toNat = 0 := by rw [l1]; rfl
  have q2 : pbit (vect_reverse r1).data 1 = pbit r1.data 1 := by
    rw [p2 1, hm]
    rfl
  have q1 : pbit r1.data 1 = true := by
    rw [p1 1]
    decide
  have q3 : pbit r2.data 1 = false := by
    rw [p3 1]
    decide
  have hlen1 : 1 < (vect_reverse r1).length := by rw [l2, l1]; decide
  have hlen2 : 1 < r2.length := by rw [l3]; decide
  have hb := hbits 1 (by norm_num)
  rw [vect_get_bit_eq _ 1 hlen1, vect_get_bit_eq r2 1 hlen2, q2, q1, q3] at hb
  exact absurd hb (by decide)

end CS
